import Mathlib

/-!
Shallow embedding of the `syn` parser generator (Rust) in Lean 4.

The embedding follows the source files under `src/`:
  * `src/grammar/symbol.rs`, `src/grammar/rule.rs`  — symbol and rule model;
  * `src/grammar.rs`        — `Grammar`, `verify`, `first`, `follow`,
    `first_sequence`, `first_follow`, `wrap_symbols`;
  * `src/automaton/item.rs`, `src/automaton/state.rs` — LR items, state
    derivation (`State::derive`) and `update_uniqueness`;
  * `src/automaton.rs`      — worklist automaton construction and the
    ACTION / GOTO / LEFT / BACKTRACK tables;
  * `src/parser.rs`         — `get_ll_parsing_table`, `parse_ll`, `parse_lr`.

Modelling conventions:
  * Rust `HashSet<usize>` values are modelled as duplicate-free `List Nat`
    and `util::to_sorted_vec` as an insertion sort, so every place the code
    sorts before iterating is deterministic here exactly as in the source.
  * Rust `HashMap` tables are association lists whose `insert` replaces an
    existing binding in place; the claims never depend on hash iteration
    order except where the source itself sorts.
  * A Rust panic (out-of-map index, `unwrap` on `None`) and a diverging
    loop are both modelled by `Option`: `none` means the Rust computation
    does not return normally.  Loops whose termination is not structural
    take an explicit fuel argument; fuel exhaustion also yields the
    fuel-out fallback noted at each definition.
  * The interior-mutability FIRST/FOLLOW caches persist across calls in
    Rust.  Each Lean entry point starts from an empty cache: for every
    terminating computation the cached value of a symbol equals its
    freshly computed value, so results agree; within one call the cache
    is threaded exactly as the source does (the partial writes of
    `cache_first` are what stops self-referential rules from looping).
-/

namespace Syn

/-! ### Small utilities (src/util.rs) -/

/-- Insertion of one element into a list sorted by `le`. -/
def insSorted (le : α → α → Bool) (a : α) : List α → List α
| [] => [a]
| b :: rest => if le a b then a :: b :: rest else b :: insSorted le a rest

/-- Insertion sort; stands in for `util::to_sorted_vec`. -/
def sortBy (le : α → α → Bool) : List α → List α
| [] => []
| a :: rest => insSorted le a (sortBy le rest)

/-- `util::to_sorted_vec` on `usize` sets. -/
def sortNat (l : List Nat) : List Nat := sortBy (fun a b => a ≤ b) l

/-- `HashSet<usize>::insert`: keep the list duplicate-free. -/
def setInsert (l : List Nat) (a : Nat) : List Nat :=
if l.contains a then l else l ++ [a]

/-- `HashSet::extend` — union of two sets. -/
def setUnion (l m : List Nat) : List Nat := m.foldl setInsert l

/-- `HashSet::remove`. -/
def setRemove (l : List Nat) (a : Nat) : List Nat := l.filter (fun x => x ≠ a)

/-- Are two `usize` sets disjoint (`HashSet::is_disjoint`)? -/
def setDisjoint (l m : List Nat) : Bool := l.all (fun x => ¬ m.contains x)

/-- Association-list lookup (`HashMap::get`). -/
def assocGet [DecidableEq κ] (l : List (κ × α)) (k : κ) : Option α :=
(l.find? (fun p => p.1 = k)).map (fun p => p.2)

/-- `HashMap::insert`: replace an existing binding in place, else append. -/
def assocSet [DecidableEq κ] : List (κ × α) → κ → α → List (κ × α)
| [], k, v => [(k, v)]
| (k', v') :: rest, k, v =>
  if k' = k then (k, v) :: rest else (k', v') :: assocSet rest k v

/-! ### Symbols (src/grammar/symbol.rs) -/

/-- The `Symbol` enum. -/
inductive Symbol where
| Start : Symbol
| End : Symbol
| Null : Symbol
| NonTerminal : Nat → String → Symbol
| Terminal : Nat → String → Symbol
deriving DecidableEq, Repr

namespace Symbol

/-- `Symbol::id`: the three sentinels occupy IDs 0, 1, 2. -/
def id : Symbol → Nat
| .Start => 0
| .End => 1
| .Null => 2
| .NonTerminal i _ => i
| .Terminal i _ => i

/-- The apostrophe character, written by code point to keep sources plain. -/
def primeChar : Char := Char.ofNat 39

/-- The double-quote character. -/
def quoteChar : Char := Char.ofNat 34

/-- `Symbol::name`. -/
def name : Symbol → String
| .Start => "^"
| .End => "$"
| .Null => "ϵ"
| .NonTerminal _ n => n
| .Terminal _ n =>
  if n.data.contains primeChar then
    (String.singleton quoteChar) ++ n ++ (String.singleton quoteChar)
  else
    (String.singleton primeChar) ++ n ++ (String.singleton primeChar)

/-- `Symbol::is_terminal` — everything except a nonterminal counts. -/
def is_terminal : Symbol → Bool
| .NonTerminal _ _ => false
| _ => true

/-- `Symbol::is_nonterminal`. -/
def is_nonterminal : Symbol → Bool
| .NonTerminal _ _ => true
| _ => false

/-- `Symbol::is_internal`. -/
def is_internal : Symbol → Bool
| .NonTerminal _ _ => false
| .Terminal _ _ => false
| _ => true

end Symbol

/-- ID of `Symbol::Start`. -/
def startId : Nat := Symbol.Start.id

/-- ID of `Symbol::End`. -/
def endId : Nat := Symbol.End.id

/-- ID of `Symbol::Null` (ε). -/
def nullId : Nat := Symbol.Null.id

/-! ### Rules (src/grammar/rule.rs) -/

/-- The `Rule` struct. -/
structure Rule where
  id : Nat
  head : Nat
  body : List Nat
  follow : List Nat
deriving DecidableEq, Repr

instance : Inhabited Rule := ⟨⟨0, 0, [], []⟩⟩

/-- `Rule::tail`: the body from the given index on. -/
def Rule.tail (r : Rule) (idx : Nat) : List Nat := r.body.drop idx

/-! ### Actions (src/automaton/action.rs) -/

/-- The `Action` enum of the ACTION table. -/
inductive Action where
| Shift : Nat → Action
| Reduce : Nat → Action
| Accept : Nat → Action
deriving DecidableEq, Repr

/-- `Action::is_reduce`. -/
def Action.is_reduce : Action → Bool
| .Reduce _ => true
| _ => false

/-! ### Grammar (src/grammar.rs) -/

/-- The `Grammar` struct.  The lexer matchers and the display strings are
out of scope; `actions` is the shift/reduce preference map that
`grammar/reader.rs` fills and `Automaton::action_table` consults.  The
FIRST/FOLLOW `RefCell` caches are threaded explicitly by the functions
that use them (see the module comment). -/
structure Grammar where
  symbols : List Symbol
  start_symbol : Nat
  rules : List Rule
  symbol_rules : List (Nat × List Nat)
  actions : List (Nat × Action)
deriving DecidableEq, Repr

namespace Grammar

/-- `Grammar::symbol` — index into the dense symbol vector. -/
def symbol (g : Grammar) (id : Nat) : Symbol := g.symbols.getD id .Null

/-- `Grammar::rule`. -/
def rule (g : Grammar) (id : Nat) : Rule := g.rules.getD id default

/-- The `symbol_rules` index of `Grammar::new`: fold the rules in order,
pushing each rule's position onto the entry of its head. -/
def mkSymbolRules (rules : List Rule) : List (Nat × List Nat) :=
(rules.enum).foldl
  (fun acc p =>
    match assocGet acc p.2.head with
    | some ids => assocSet acc p.2.head (ids ++ [p.1])
    | none => acc ++ [(p.2.head, [p.1])])
  []

/-- `Grammar::new` (name, description and token matchers omitted). -/
def new (symbols : List Symbol) (rules : List Rule) (start_symbol : Nat)
    (actions : List (Nat × Action)) : Grammar :=
  ⟨symbols, start_symbol, rules, mkSymbolRules rules, actions⟩

end Grammar

/-- `Rule::nonterminals` — the set of nonterminal symbols of the body. -/
def ruleNonterminals (g : Grammar) (r : Rule) : List Nat :=
(r.body.filter (fun id => (g.symbol id).is_nonterminal)).foldl setInsert []

/-! ### FIRST (src/grammar.rs, `Grammar::first`) -/

/-- The FIRST cache (contents of the `first: RefCell<HashMap<..>>`). -/
abbrev FirstCache := List (Nat × List Nat)

/-- `Grammar::cache_first`: store the sorted set and return it. -/
def cacheFirst (c : FirstCache) (symbol : Nat) (first : List Nat) :
    List Nat × FirstCache :=
  let v := sortNat first
  (v, assocSet c symbol v)

/-- The inner `for &id in rule.tail(*idx)` loop of `Grammar::first` for one
rule: consume body symbols from `idx` on, returning the new index, the
rule's FIRST contribution and the updated cache.  `recur` is the recursive
`self.first(id)` call. -/
def firstTailGo (recur : Nat → FirstCache → List Nat × FirstCache)
    (symbol len : Nat) :
    List Nat → Nat → List Nat → FirstCache → Nat × List Nat × FirstCache
| [], idx, rf, c => (idx, rf, c)
| id :: rest, idx, rf, c =>
  let idx := idx + 1
  if id = symbol then
    (idx, setRemove rf nullId, c)
  else
    let (f, c) := recur id c
    let hasNull := f.contains nullId
    let rf := setUnion rf f
    if hasNull then firstTailGo recur symbol len rest idx rf c
    else (len, setRemove rf nullId, c)

/-- One pass of the outer `loop` of `Grammar::first` over all rules of the
symbol, caching the partial result after every rule exactly as the source
does ("Cache current result to prevent an infinite loop"). -/
def firstPassGo (recur : Nat → FirstCache → List Nat × FirstCache)
    (symbol : Nat) :
    List (Rule × Nat) → List Nat → FirstCache →
    List (Rule × Nat) × List Nat × FirstCache
| [], fs, c => ([], fs, c)
| (rule, idx) :: rest, fs, c =>
  let (idx', rf, c) :=
    firstTailGo recur symbol rule.body.length (rule.body.drop idx) idx [] c
  let fs := setUnion fs rf
  let (_, c) := cacheFirst c symbol fs
  let (rest', fs, c) := firstPassGo recur symbol rest fs c
  ((rule, idx') :: rest', fs, c)

/-- The outer `loop` of `Grammar::first`: repeat passes until every rule is
exhausted or the set no longer admits ε.  Fuel exhaustion behaves like the
loop break. -/
def firstIterGo (recur : Nat → FirstCache → List Nat × FirstCache)
    (symbol : Nat) :
    Nat → List (Rule × Nat) → List Nat → FirstCache → List Nat × FirstCache
| 0, _, fs, c => cacheFirst c symbol fs
| fuel + 1, rules, fs, c =>
  let (rules, fs, c) := firstPassGo recur symbol rules fs c
  let allDone := rules.all (fun p => p.1.body.length = p.2)
  let hasNull := fs.contains nullId
  if allDone || !hasNull then cacheFirst c symbol fs
  else firstIterGo recur symbol fuel rules fs c

/-- `Grammar::first`, explicit in the cache.  The fuel bounds both the
nesting of recursive `first` calls and the outer fixed-point passes; the
Rust code recurses (and can overflow its stack) where the fuel runs out
here. -/
def firstGo (g : Grammar) : Nat → Nat → FirstCache → List Nat × FirstCache
| 0, _, c => ([], c)
| fuel + 1, symbol, c =>
  match assocGet c symbol with
  | some v => (v, c)
  | none =>
    if (g.symbol symbol).is_terminal then
      cacheFirst c symbol [symbol]
    else
      match assocGet g.symbol_rules symbol with
      | none => ([], c)
      | some rids =>
        let rules := rids.map (fun id => (g.rule id, 0))
        firstIterGo (fun s c => firstGo g fuel s c) symbol (fuel + 1) rules [] c

/-- Default fuel: deep enough for every terminating FIRST computation of
the grammar (nesting is bounded by the number of symbols, passes by the
sizes of the sets involved). -/
def firstFuel (g : Grammar) : Nat :=
g.symbols.length + g.rules.length + 10

/-- `Grammar::first` from an empty cache. -/
def firstD (g : Grammar) (symbol : Nat) : List Nat :=
(firstGo g (firstFuel g) symbol []).1

/-! ### FIRST of a sequence (src/grammar.rs, `Grammar::first_sequence`) -/

/-- The loop of `Grammar::first_sequence`, threading the FIRST cache. -/
def firstSequenceGo (g : Grammar) (fuel : Nat) :
    List Nat → List Nat → FirstCache → List Nat × FirstCache
| [], acc, c => (acc, c)
| s :: rest, acc, c =>
  let (f, c) := firstGo g fuel s c
  let hasNull := f.contains nullId
  let acc := setUnion acc f
  if hasNull then firstSequenceGo g fuel rest acc c
  else (setRemove acc nullId, c)

/-- `Grammar::first_sequence`. -/
def first_sequence (g : Grammar) (symbols : List Nat) : List Nat :=
sortNat (firstSequenceGo g (firstFuel g) symbols [] []).1

/-! ### FOLLOW (src/grammar.rs, `Grammar::follow`) -/

/-- One rule-position step of the FOLLOW fixed point: `rule.body[idx]`
receives FIRST(tail) with the ε part replaced by the head's current FOLLOW
(`first.is_empty()` falls back to the head's FOLLOW likewise).  The state
is the FOLLOW map together with the `done` flag. -/
def followStep (g : Grammar) (rule : Rule) (idx : Nat)
    (st : List (Nat × List Nat) × Bool) : List (Nat × List Nat) × Bool :=
  let (follow, done) := st
  let id := rule.body.getD idx 0
  if (g.symbol id).is_terminal then st
  else
    let first := first_sequence g (rule.tail (idx + 1))
    let from' := (assocGet follow rule.head).getD []
    let first :=
      if first.isEmpty then from'
      else if first.contains nullId then setUnion (setRemove first nullId) from'
      else first
    let to' := (assocGet follow id).getD []
    let done := done && first.all (fun x => to'.contains x)
    (assocSet follow id (setUnion to' first), done)

/-- One full pass of the FOLLOW fixed point over every rule and position. -/
def followPass (g : Grammar) (st : List (Nat × List Nat) × Bool) :
    List (Nat × List Nat) × Bool :=
g.rules.foldl
  (fun st rule =>
    (List.range rule.body.length).foldl
      (fun st idx => followStep g rule idx st) st)
  st

/-- The `loop` of `Grammar::follow`; each unfinished pass grows some set,
so the fuel of `followFuel` suffices for every terminating run. -/
def followIter (g : Grammar) :
    Nat → List (Nat × List Nat) → List (Nat × List Nat)
| 0, follow => follow
| fuel + 1, follow =>
  let (follow, done) := followPass g (follow, true)
  if done then follow else followIter g fuel follow

/-- Fuel for the FOLLOW fixed point. -/
def followFuel (g : Grammar) : Nat :=
g.symbols.length * g.symbols.length + 10

/-- `Grammar::follow`: run the whole fixed point (the source computes the
entire map at once and then caches it) and read off one symbol, sorted. -/
def followD (g : Grammar) (symbol : Nat) : List Nat :=
  let init := g.symbols.map (fun s => (s.id, ([] : List Nat)))
  let follow := followIter g (followFuel g) init
  sortNat ((assocGet follow symbol).getD [])

/-! ### FIRSTFOLLOW (src/grammar.rs, `Grammar::first_follow`) -/

/-- `Grammar::first_follow`: FIRST of the sequence; if that is empty or
contains ε, drop ε and add FIRST of every member of FOLLOW of the given
symbol. -/
def first_follow (g : Grammar) (symbols : List Nat) (follow : Nat) :
    List Nat :=
  let result := first_sequence g symbols
  if result.isEmpty || result.contains nullId then
    let result := setRemove result nullId
    sortNat ((followD g follow).foldl
      (fun acc s => setUnion acc (firstD g s)) result)
  else
    sortNat result

/-! ### Verification (src/grammar.rs, `Grammar::verify`) -/

/-- The `grammar::Error` enum. -/
inductive GrammarError where
| NoSymbol : Symbol → GrammarError
| Unreachable : Symbol → GrammarError
| LeftRecursive : Symbol → GrammarError
| NotRealizable : Symbol → GrammarError
deriving DecidableEq, Repr

/-- The reachability scan of `verify`: the first `symbol_rules` key that is
neither internal nor mentioned in any rule body (nor the start symbol). -/
def findUnreach (g : Grammar) (nts : List Nat) : Option Symbol :=
(g.symbol_rules.find? (fun p =>
    !(g.symbol p.1).is_internal && !nts.contains p.1)).map
  (fun p => g.symbol p.1)

/-- The left-recursion scan of `verify`: the first non-internal head all of
whose rules start with the head itself. -/
def findLeftRec (g : Grammar) : Option Symbol :=
(g.symbol_rules.find? (fun p =>
    !(g.symbol p.1).is_internal && !p.2.isEmpty &&
      p.2.all (fun rid => (g.rule rid).body.headD 0 = p.1))).map
  (fun p => g.symbol p.1)

/-- The filter inside the realizability `loop`: keep the candidates that
have some rule whose body nonterminals avoid the candidate set.  The Rust
code indexes `self.symbol_rules[symbol]`, which panics when the candidate
has no rules; `none` models that panic. -/
def realizableFilter (g : Grammar) (cand : List Nat) :
    List Nat → Option (List Nat)
| [] => some []
| s :: rest =>
  match assocGet g.symbol_rules s with
  | none => none
  | some rids =>
    match realizableFilter g cand rest with
    | none => none
    | some l =>
      if rids.any (fun id => setDisjoint (ruleNonterminals g (g.rule id)) cand)
      then some (s :: l) else some l

/-- The realizability fixed point of `verify`: repeatedly remove realizable
candidates until none is found. -/
def realizeLoop (g : Grammar) : Nat → List Nat → Option (List Nat)
| 0, cand => some cand
| fuel + 1, cand =>
  match realizableFilter g cand cand with
  | none => none
  | some realizable =>
    if realizable.isEmpty then some cand
    else realizeLoop g fuel (cand.filter (fun s => !realizable.contains s))

/-- The nonterminal set `verify` starts from: every nonterminal occurring
in some rule body, plus the start symbol. -/
def reachableSet (g : Grammar) : List Nat :=
setInsert
  (g.rules.foldl (fun acc r => setUnion acc (ruleNonterminals g r)) [])
  g.start_symbol

/-- The pre-pass of the realizability check: symbols with an all-terminal
rule are realizable at once. -/
def realizeSeed (g : Grammar) : List Nat :=
g.rules.foldl
  (fun acc r =>
    if r.body.all (fun id => (g.symbol id).is_terminal)
    then setRemove acc r.head else acc)
  (reachableSet g)

/-- `Grammar::verify`, check for check: missing start rule, unreachable
nonterminal, left-recursive nonterminal, then the realizability fixed
point, reporting the smallest unrealizable symbol.  `none` is a panic. -/
def verify (g : Grammar) : Option (Except GrammarError Unit) :=
  if (assocGet g.symbol_rules g.start_symbol).isNone then
    some (.error (.NoSymbol (g.symbol g.start_symbol)))
  else
    match findUnreach g (reachableSet g) with
    | some s => some (.error (.Unreachable s))
    | none =>
      match findLeftRec g with
      | some s => some (.error (.LeftRecursive s))
      | none =>
        let nonterminals := realizeSeed g
        match realizeLoop g (nonterminals.length + 1) nonterminals with
        | none => none
        | some remaining =>
          if remaining.isEmpty then some (.ok ())
          else some (.error (.NotRealizable
            (g.symbol ((sortNat remaining).headD 0))))

/-! ### Wrapper synthesis (src/grammar.rs, `Grammar::wrap_symbols`) -/

/-- The name-search `loop` of `wrap_symbols`: keep adding a prime to the
name; stop with the final name when no symbol carries it, or return the ID
of an existing rule whose body equals the wrapped sequence.  `none` models
the panic of `self.rules(id)` on a symbol without rules (and fuel
exhaustion, which cannot happen with fuel above the symbol count). -/
def wrapLoop (g : Grammar) (symbols : List Nat) :
    Nat → String → Option (Option Nat × String)
| 0, _ => none
| fuel + 1, name =>
  let name := name.push Symbol.primeChar
  match g.symbols.find? (fun s => s.name = name) with
  | none => some (none, name)
  | some sym =>
    match assocGet g.symbol_rules sym.id with
    | none => none
    | some rids =>
      match (rids.map g.rule).find? (fun r => r.body = symbols) with
      | some r => some (some r.id, name)
      | none => wrapLoop g symbols fuel name

/-- `Grammar::wrap_symbols`: reuse the rule found by the name loop, or
append a fresh primed nonterminal and the rule `X' → End σ1 … σk` with the
given follow set.  Returns the rule ID and the updated grammar.  (The
source also copies the FIRST/FOLLOW cache entries of `symbols[0]` to the
fresh symbol; no claim depends on cached state, so the caches stay
implicit here.)  `none` models the `symbols[0]` panic on an empty slice
and the panics of the name loop. -/
def wrap_symbols (g : Grammar) (symbols follow : List Nat) :
    Option (Nat × Grammar) :=
  match symbols.head? with
  | none => none
  | some h0 =>
    let head := g.symbol h0
    match wrapLoop g symbols (g.symbols.length + 1) head.name with
    | none => none
    | some (some rid, _) => some (rid, g)
    | some (none, name) =>
      let symbolId := g.symbols.length
      let sym := Symbol.NonTerminal symbolId name
      let ruleId := g.rules.length
      let rule : Rule := ⟨ruleId, symbolId, endId :: symbols, follow⟩
      some (ruleId,
        { g with
          symbols := g.symbols ++ [sym],
          rules := g.rules ++ [rule],
          symbol_rules := g.symbol_rules ++ [(symbolId, [ruleId])] })

/-! ### The LL(1) table (src/parser.rs, `get_ll_parsing_table`) -/

/-- The parser error enum (src/parser.rs).  `Parse` carries the offending
token's symbol ID (the lexeme and span of the Rust `Token` play no role in
the parsing logic). -/
inductive ParseError where
| Conflict : Symbol → ParseError
| EOF : ParseError
| Internal : ParseError
| Parse : Nat → ParseError
deriving DecidableEq, Repr

/-- The per-rule cell insertions of `get_ll_parsing_table`: write the rule
into `(head, s)` for every selected `s`, recording the head as conflicted
whenever the cell was already occupied. -/
def llInsertCells (r : Rule) :
    List Nat → List ((Nat × Nat) × Nat) → List Nat →
    List ((Nat × Nat) × Nat) × List Nat
| [], tbl, conf => (tbl, conf)
| s :: rest, tbl, conf =>
  let conf :=
    if (assocGet tbl (r.head, s)).isSome then setInsert conf r.head else conf
  llInsertCells r rest (assocSet tbl (r.head, s) r.id) conf

/-- The symbol selection of `get_ll_parsing_table` for one rule: FIRST of
the body; if it admits ε the whole selection becomes FOLLOW of the head
(`symbols = grammar.follow(rule.head)` replaces the set, it does not just
substitute the ε member). -/
def llSelect (g : Grammar) (r : Rule) : List Nat :=
  let symbols := first_sequence g r.body
  if symbols.contains nullId then followD g r.head else symbols

/-- The cell-write condition of the LL table loop: rule `r` writes cell
`k` when its head is not ignored, `k` is a cell of its head's row and the
cell's symbol is selected for `r`. -/
def llWrites (g : Grammar) (ignored : List Nat) (r : Rule)
    (k : Nat × Nat) : Prop :=
  ignored.contains r.head = false ∧ k.1 = r.head ∧ k.2 ∈ llSelect g r

/-- The rule loop of `get_ll_parsing_table`. -/
def llTableGo (g : Grammar) (ignored : List Nat) :
    List Rule → List ((Nat × Nat) × Nat) → List Nat →
    List ((Nat × Nat) × Nat) × List Nat
| [], tbl, conf => (tbl, conf)
| r :: rest, tbl, conf =>
  if ignored.contains r.head then llTableGo g ignored rest tbl conf
  else
    let (tbl, conf) := llInsertCells r (llSelect g r) tbl conf
    llTableGo g ignored rest tbl conf

/-- `get_ll_parsing_table`: the table, or the sorted conflict list. -/
def get_ll_parsing_table (g : Grammar) (ignored : List Nat) :
    Except (List Nat) (List ((Nat × Nat) × Nat)) :=
  let (tbl, conf) := llTableGo g ignored g.rules [] []
  if conf.isEmpty then .ok tbl else .error (sortNat conf)

/-! ### The LL(1) driver (src/parser.rs, `parse_ll`) -/

/-- `next_token`: pop the front of the input and drop it when internal. -/
def nextTok (g : Grammar) : List Nat → Option Nat
| [] => none
| t :: _ => if (g.symbol t).is_internal then none else some t

/-- The checks after the parse loop: leftover input is a parse error, a
leftover stack an EOF error, otherwise the collected rules. -/
def finishLL (g : Grammar) (input stack acc : List Nat) :
    Except ParseError (List Nat) :=
  match nextTok g input with
  | some t => .error (.Parse t)
  | none => if stack.isEmpty then .ok acc else .error .EOF

/-- The `while` loop of `parse_ll`.  The stack grows to the left (its head
is the Rust vector's last element); rule bodies are pushed reversed,
skipping ε.  `none` models a diverging loop (fuel exhaustion). -/
def parseLLGo (g : Grammar) (tbl : List ((Nat × Nat) × Nat)) :
    Nat → List Nat → List Nat → List Nat →
    Option (Except ParseError (List Nat))
| 0, _, _, _ => none
| fuel + 1, input, stack, acc =>
  match input, stack with
  | tok :: _, sym :: stackRest =>
    match assocGet tbl (sym, tok) with
    | some rid =>
      let push := ((g.rule rid).body.filter (fun s => s ≠ nullId))
      parseLLGo g tbl fuel input (push ++ stackRest) (acc ++ [rid])
    | none =>
      if sym = tok then parseLLGo g tbl fuel input.tail stackRest acc
      else some (finishLL g input stack acc)
  | _, _ => some (finishLL g input stack acc)

/-- `get_input`: surround the token sequence with End sentinels. -/
def getInput (tokens : List Nat) : List Nat := endId :: tokens ++ [endId]

/-- `parse_ll`: build the table (reporting the smallest conflicted symbol)
and run the driver from stack `[Start]`. -/
def parse_ll (g : Grammar) (fuel : Nat) (tokens : List Nat) :
    Option (Except ParseError (List Nat)) :=
  match get_ll_parsing_table g [] with
  | .error conflicts =>
    some (.error (.Conflict (g.symbol (conflicts.headD 0))))
  | .ok tbl => parseLLGo g tbl fuel (getInput tokens) [startId] []

/-! ### Items (src/automaton/item.rs) -/

/-- The `Item` struct: a rule with a dot position, the symbol under the
dot (`head`), a one-symbol lookahead and the uniqueness flag. -/
structure Item where
  id : Nat
  rule : Nat
  dot : Nat
  head : Option Nat
  lookahead : Nat
  unique : Bool
deriving DecidableEq, Repr

instance : Inhabited Item := ⟨⟨0, 0, 0, none, 0, true⟩⟩

/-- The equality the Rust `Item` uses for hashing and set membership:
every field except `id`. -/
def Item.keyEq (a b : Item) : Bool :=
a.rule = b.rule && a.dot = b.dot && a.lookahead = b.lookahead &&
  a.unique = b.unique

/-- `Item::initial` — dot 0, unique.  Rule bodies are never empty
(`body = [Null]` for ε-rules), so `body[0]` is total here via `headD`. -/
def Item.initial (id : Nat) (rule : Rule) (lookahead : Nat) : Item :=
⟨id, rule.id, 0, some (rule.body.headD 0), lookahead, true⟩

/-- `Item::new`: a closure item; a leading `$` of a wrapper rule is
skipped. -/
def Item.new (id : Nat) (rule : Rule) (lookahead : Nat) (unique : Bool) :
    Item :=
  let dot := if rule.body.headD 0 = endId then 1 else 0
  ⟨id, rule.id, dot, some (rule.body.getD dot 0), lookahead, unique⟩

/-- `Item::pass`: advance the dot and refresh `head`. -/
def Item.pass (it : Item) (rule : Rule) : Item :=
if it.dot < rule.body.length then
  { it with dot := it.dot + 1, head := rule.body.get? (it.dot + 1) }
else it

/-- `Item::tail`: the symbols after `head`, plus the lookahead. -/
def Item.tail (it : Item) (rule : Rule) : List Nat :=
(if it.head.isSome then rule.tail (it.dot + 1) else []) ++ [it.lookahead]

/-- `Item::follow`: `head` and everything after it, plus the lookahead. -/
def Item.follow (it : Item) (rule : Rule) : List Nat :=
rule.tail it.dot ++ [it.lookahead]

/-- `Item::at_nonterminal`. -/
def Item.at_nonterminal (it : Item) (symbols : List Symbol) : Bool :=
match it.head with
| some id => (symbols.getD id .Null).is_nonterminal
| none => false

/-- `Item::can_reduce`. -/
def Item.can_reduce (it : Item) (initialRule : Nat) : Bool :=
if it.rule = initialRule then false
else
  match it.head with
  | some id => id = nullId
  | none => true

/-- `Item::can_accept`. -/
def Item.can_accept (it : Item) (initialRule : Nat) : Bool :=
it.rule = initialRule && it.head.isNone

/-! ### Transitions (src/automaton/transition.rs) -/

/-- `StateTransition` (`from` is spelled `frm`, a Lean keyword clash). -/
structure StateTransition where
  frm : Nat
  tgt : Nat
  symbol : Nat
deriving DecidableEq, Repr

/-- `ItemTransition`: endpoints are `(state, item)` pairs; inside
`State::derive` the item components are temporary local indices, after
finalization they are global item IDs. -/
structure ItemTransition where
  frm : Nat × Nat
  tgt : Nat × Nat
  symbol : Nat
deriving DecidableEq, Repr

/-- `HashSet<StateTransition>::insert`. -/
def stInsert (l : List StateTransition) (t : StateTransition) :
    List StateTransition :=
if l.any (fun x => x = t) then l else l ++ [t]

/-- `HashSet<ItemTransition>::insert`. -/
def trInsert (l : List ItemTransition) (t : ItemTransition) :
    List ItemTransition :=
if l.any (fun x => x = t) then l else l ++ [t]

/-- The derived lexicographic order of `Transition<usize>`. -/
def stLe (a b : StateTransition) : Bool :=
a.frm < b.frm || (a.frm = b.frm && (a.tgt < b.tgt ||
  (a.tgt = b.tgt && a.symbol ≤ b.symbol)))

/-- The lexicographic order of `(usize, usize)`. -/
def pairLt (a b : Nat × Nat) : Bool :=
a.1 < b.1 || (a.1 = b.1 && a.2 < b.2)

/-- The derived lexicographic order of `Transition<(usize, usize)>`. -/
def itLe (a b : ItemTransition) : Bool :=
pairLt a.frm b.frm || (a.frm = b.frm && (pairLt a.tgt b.tgt ||
  (a.tgt = b.tgt && a.symbol ≤ b.symbol)))

/-! ### States (src/automaton/state.rs) -/

/-- The `State` struct: a sorted list of global item IDs.  Equality in
Rust ignores `id`; the automaton compares the `items` lists directly. -/
structure State where
  id : Nat
  items : List Nat
deriving DecidableEq, Repr

instance : Inhabited State := ⟨⟨0, []⟩⟩

/-- `State::transitions`: the sorted set of non-ε head symbols. -/
def stateTransSyms (st : State) (items : List Item) : List Nat :=
sortNat
  (((st.items.filterMap (fun iid => (items.getD iid default).head)).filter
      (fun h => h ≠ nullId)).foldl setInsert [])

/-- Overwrite the `unique` flag of the item at a local index. -/
def setUnique (items : List Item) (id : Nat) (u : Bool) : List Item :=
items.set id { items.getD id default with unique := u }

/-- The forward propagation `loop` of `update_uniqueness`: per round,
collect the targets of ε-edges out of the current non-unique set that are
still unique, then clear them; stop when a round collects nothing.  Each
round clears at least one flag, so the caller's fuel is enough. -/
def propagateNonUnique (frm : Nat × Nat) (transitions : List ItemTransition) :
    Nat → List Nat → List Item → List Item
| 0, _, items => items
| fuel + 1, nonUnique, items =>
  let next :=
    ((transitions.filter (fun t =>
        t.frm.1 = frm.1 && (items.getD t.tgt.2 default).unique &&
          nonUnique.contains t.frm.2)).map (fun t => t.tgt.2)).foldl
      setInsert []
  if next.isEmpty then items
  else
    propagateNonUnique frm transitions fuel next
      (next.foldl (fun acc id => setUnique acc id false) items)

/-- `update_uniqueness` (src/automaton/state.rs): a still-unique item that
derives itself becomes non-unique; otherwise it stays unique only when all
its parents are unique and share one `(rule, dot)`.  A flag that drops
propagates forward along the ε-item-transitions. -/
def update_uniqueness (id : Nat) (frm : Nat × Nat) (items : List Item)
    (transitions : List ItemTransition) : List Item :=
  if !(items.getD id default).unique then items
  else
    let items1 :=
      if id = frm.2 then setUnique items id false
      else
        let parents :=
          ((transitions.filter (fun t => t.tgt.2 = id)).map
            (fun t => t.frm.2)).filterMap (fun idx => items.get? idx)
        let u :=
          match parents with
          | [] => true
          | p0 :: _ =>
            parents.all (fun it =>
              it.unique && it.rule = p0.rule && it.dot = p0.dot)
        setUnique items id u
    if (items1.getD id default).unique then items1
    else propagateNonUnique frm transitions (items1.length + 1) [id] items1

/-- The mutable state of the closure inside `State::derive`: the items of
the next state, the item transitions gathered so far, the lookup buffer
(each item in both uniqueness variants, sharing the real item's ID) and
the work queue of local item IDs. -/
structure DeriveSt where
  nextItems : List Item
  transitions : List ItemTransition
  buffer : List Item
  queue : List Nat
deriving Repr

/-- `HashSet<Item>::insert` for the buffer (first binding of a key wins,
as for Rust's `HashSet::insert`). -/
def bufInsert (buf : List Item) (it : Item) : List Item :=
if buf.any (fun b => b.keyEq it) then buf else buf ++ [it]

/-- The `for &lookahead in &lookaheads` loop of the closure step: derive
one new item per lookahead for the given rule, either fusing with an
existing buffered item (adding an ε-transition and recomputing its
uniqueness) or appending a fresh item. -/
def closureLas (g : Grammar) (stateId parentId : Nat) (parentUnique : Bool)
    (rule : Rule) : List Nat → DeriveSt → DeriveSt
| [], ds => ds
| la :: rest, ds =>
  let nextItem := Item.new ds.nextItems.length rule la parentUnique
  let tr : ItemTransition :=
    ⟨(stateId, parentId), (stateId, nextItem.id), nullId⟩
  match ds.buffer.find? (fun b => b.keyEq nextItem) with
  | some existing =>
    let tr := { tr with tgt := (stateId, existing.id) }
    let transitions := trInsert ds.transitions tr
    let items :=
      update_uniqueness existing.id (stateId, parentId) ds.nextItems
        transitions
    closureLas g stateId parentId parentUnique rule rest
      { ds with nextItems := items, transitions := transitions }
  | none =>
    let queue :=
      if nextItem.at_nonterminal g.symbols then ds.queue ++ [nextItem.id]
      else ds.queue
    closureLas g stateId parentId parentUnique rule rest
      { nextItems := ds.nextItems ++ [nextItem],
        transitions := trInsert ds.transitions tr,
        buffer :=
          bufInsert (bufInsert ds.buffer nextItem)
            { nextItem with unique := !nextItem.unique },
        queue := queue }

/-- The `for rule in grammar.rules(head)` loop of the closure step. -/
def closureRules (g : Grammar) (stateId parentId : Nat)
    (parentUnique : Bool) (lookaheads : List Nat) :
    List Rule → DeriveSt → DeriveSt
| [], ds => ds
| r :: rest, ds =>
  closureRules g stateId parentId parentUnique lookaheads rest
    (closureLas g stateId parentId parentUnique r lookaheads ds)

/-- The closure work-queue loop of `State::derive`.  `none` models the
panics of `item.head.unwrap()` and of `grammar.rules(head)` on a
nonterminal without rules, and fuel exhaustion (the Rust loop terminates
because the item space is finite). -/
def closureLoop (g : Grammar) (stateId : Nat) :
    Nat → DeriveSt → Option DeriveSt
| 0, _ => none
| fuel + 1, ds =>
  match ds.queue with
  | [] => some ds
  | qid :: queueRest =>
    let item := ds.nextItems.getD qid default
    match item.head with
    | none => none
    | some head =>
      let lookaheads := first_sequence g (item.tail (g.rule item.rule))
      match assocGet g.symbol_rules head with
      | none => none
      | some rids =>
        let ds :=
          closureRules g stateId item.id item.unique lookaheads
            (rids.map g.rule) { ds with queue := queueRest }
        closureLoop g stateId fuel ds

/-- The finalization of `State::derive`: intern every local item into the
global item list, reusing the ID of an item equal up to `id`; returns the
global IDs in local order together with the grown global list. -/
def internItems : List Item → List Item → List Nat × List Item
| [], gl => ([], gl)
| it :: rest, gl =>
  match gl.find? (fun e => e.keyEq it) with
  | some e =>
    let (ids, gl) := internItems rest gl
    (e.id :: ids, gl)
  | none =>
    let nid := gl.length
    let gl := gl ++ [{ it with id := nid }]
    let (ids, gl') := internItems rest gl
    (nid :: ids, gl')

/-- Fuel for the closure loop: every queued local item is distinct in
`(rule, dot, lookahead)`, so this bound dominates the queue length. -/
def closureFuel (g : Grammar) (st : State) : Nat :=
(g.rules.length + 1) * (g.symbols.length + 1) + st.items.length + 10

/-- `State::derive`: kernel items advanced over the transition symbol,
closure over nonterminal heads, then finalization (interning plus the
rewrite of transition endpoints from local indices to global item IDs).
`none` when no item can take the transition (the Rust function returns
`None`, which `Automaton::new` unwraps) or when a closure panic occurs. -/
def derive (g : Grammar) (st : State) (symbol : Nat)
    (globalItems : List Item) (stateId : Nat) :
    Option (State × List ItemTransition × List Item) :=
  let base :=
    st.items.enum.map
      (fun p => { (globalItems.getD p.2 default) with id := p.1 })
  let kernel := base.filter (fun it => it.head = some symbol)
  if kernel.isEmpty then none
  else
    let ds0 :=
      kernel.enum.foldl
        (fun (ds : DeriveSt) p =>
          let tr : ItemTransition :=
            ⟨(st.id, p.2.id), (stateId, p.1), symbol⟩
          let item := { p.2 with id := p.1 }
          let item := item.pass (g.rule item.rule)
          let queue :=
            if item.at_nonterminal g.symbols then ds.queue ++ [item.id]
            else ds.queue
          { nextItems := ds.nextItems ++ [item],
            transitions := trInsert ds.transitions tr,
            buffer :=
              bufInsert (bufInsert ds.buffer item)
                { item with unique := !item.unique },
            queue := queue })
        ⟨[], [], [], []⟩
    match closureLoop g stateId (closureFuel g st) ds0 with
    | none => none
    | some ds =>
      let (ids, globalItems) := internItems ds.nextItems globalItems
      let remap := fun (p : Nat × Nat) =>
        if p.1 = st.id then (p.1, st.items.getD p.2 0)
        else (p.1, ids.getD p.2 0)
      let transitions :=
        ds.transitions.foldl
          (fun acc t => trInsert acc ⟨remap t.frm, remap t.tgt, t.symbol⟩) []
      some (⟨stateId, sortNat ids⟩, transitions, globalItems)

/-! ### The automaton (src/automaton.rs) -/

/-- The `Automaton` struct (the grammar is passed around explicitly). -/
structure Automaton where
  start_rule : Nat
  states : List State
  state_transitions : List StateTransition
  items : List Item
  item_transitions : List ItemTransition
deriving Repr

/-- The worklist of `Automaton::new`: pop a `(state, symbol)` pair, derive
the successor, dedup it against the existing states by item-set equality
(retargeting the transitions of a duplicate), and enqueue the transition
symbols of a genuinely new state. -/
def automatonGo (g : Grammar) :
    Nat → List (Nat × Nat) → List State → List StateTransition →
    List Item → List ItemTransition →
    Option (List State × List StateTransition × List Item ×
      List ItemTransition)
| 0, _, _, _, _, _ => none
| _ + 1, [], sts, stt, its, itt => some (sts, stt, its, itt)
| fuel + 1, (id, symbol) :: queue, sts, stt, its, itt =>
  let state := sts.getD id default
  match derive g state symbol its sts.length with
  | none => none
  | some (nextState, transitions, its) =>
    match sts.find? (fun s => s.items = nextState.items) with
    | some existing =>
      let stt := stInsert stt ⟨id, existing.id, symbol⟩
      let itt :=
        transitions.foldl
          (fun acc t =>
            let t :=
              { t with
                frm :=
                  if t.frm.1 = nextState.id then (existing.id, t.frm.2)
                  else t.frm,
                tgt :=
                  if t.tgt.1 = nextState.id then (existing.id, t.tgt.2)
                  else t.tgt }
            trInsert acc t)
          itt
      automatonGo g fuel queue sts stt its itt
    | none =>
      let stt := stInsert stt ⟨id, nextState.id, symbol⟩
      let itt := transitions.foldl trInsert itt
      let newQ :=
        (stateTransSyms nextState its).map (fun sym => (nextState.id, sym))
      automatonGo g fuel (queue ++ newQ) (sts ++ [nextState]) stt its itt

/-- `Automaton::new`: one initial item per lookahead in the start rule's
follow set, then the worklist from `(state 0, End)`; the final collections
are sorted exactly where the source sorts them. -/
def automatonNew (fuel : Nat) (g : Grammar) (ruleId : Nat) :
    Option Automaton :=
  let startRule := g.rule ruleId
  let items0 :=
    startRule.follow.foldl
      (fun (acc : List Item) la =>
        let it := Item.initial acc.length startRule la
        if acc.any (fun e => e.keyEq it) then acc else acc ++ [it])
      []
  let initState : State := ⟨0, List.range items0.length⟩
  match automatonGo g fuel [(0, endId)] [initState] [] items0 [] with
  | none => none
  | some (sts, stt, its, itt) =>
    some ⟨startRule.id, sts, sortBy stLe stt, its, sortBy itLe itt⟩

/-! ### The tables (src/automaton.rs and src/automaton/data.rs) -/

/-- Insertion of one Reduce/Accept action into the ACTION table: an
occupied cell is resolved by the grammar's action preference when one
exists for the symbol (Reduce replaces, Shift keeps), otherwise the build
fails with `ActionConflict(state, symbol)` — carried here as the
`(state, symbol)` key. -/
def actionInsert (g : Grammar) (tbl : List ((Nat × Nat) × Action))
    (key : Nat × Nat) (act : Action) :
    Except (Nat × Nat) (List ((Nat × Nat) × Action)) :=
  match assocGet tbl key with
  | some _ =>
    match assocGet g.actions key.2 with
    | some pref => .ok (if pref.is_reduce then assocSet tbl key act else tbl)
    | none => .error key
  | none => .ok (assocSet tbl key act)

/-- Sequential insertion of a list of ACTION entries. -/
def actionEntriesGo (g : Grammar) :
    List ((Nat × Nat) × Action) → List ((Nat × Nat) × Action) →
    Except (Nat × Nat) (List ((Nat × Nat) × Action))
| [], tbl => .ok tbl
| (key, act) :: rest, tbl =>
  match actionInsert g tbl key act with
  | .error e => .error e
  | .ok tbl => actionEntriesGo g rest tbl

/-- The Reduce/Accept entries contributed by the items of every state, in
state and item order; Accept has priority over Reduce for a single item
and lands on `head.unwrap_or(lookahead)`. -/
def actionItemEntries (auto : Automaton) :
    List ((Nat × Nat) × Action) :=
(auto.states.map (fun st =>
    st.items.filterMap (fun iid =>
      let item := auto.items.getD iid default
      if item.can_accept auto.start_rule then
        some ((st.id, item.head.getD item.lookahead), Action.Accept item.rule)
      else if item.can_reduce auto.start_rule then
        some ((st.id, item.lookahead), Action.Reduce item.rule)
      else none))).flatten

/-- The initial Shift entries of the ACTION table: every state transition
on a terminal or End symbol. -/
def actionShiftEntries (g : Grammar) (auto : Automaton) :
    List ((Nat × Nat) × Action) :=
auto.state_transitions.foldl
  (fun acc t =>
    match g.symbol t.symbol with
    | .Terminal _ _ => assocSet acc (t.frm, t.symbol) (.Shift t.tgt)
    | .End => assocSet acc (t.frm, t.symbol) (.Shift t.tgt)
    | _ => acc)
  []

/-- `Automaton::action_table`. -/
def action_table (g : Grammar) (auto : Automaton) :
    Except (Nat × Nat) (List ((Nat × Nat) × Action)) :=
  actionEntriesGo g (actionItemEntries auto) (actionShiftEntries g auto)

/-- `Automaton::goto_table`: state transitions on nonterminals. -/
def goto_table (g : Grammar) (auto : Automaton) :
    List ((Nat × Nat) × Nat) :=
auto.state_transitions.foldl
  (fun acc t =>
    match g.symbol t.symbol with
    | .NonTerminal _ _ => assocSet acc (t.frm, t.symbol) t.tgt
    | _ => acc)
  []

/-- The `acc.entry(key).or_default().push(item)` step of `left_table`. -/
def entryPush (l : List ((Nat × Nat) × List Item)) (k : Nat × Nat)
    (it : Item) : List ((Nat × Nat) × List Item) :=
  match assocGet l k with
  | some items => assocSet l k (items ++ [it])
  | none => l ++ [(k, [it])]

/-- Record one item under `(state, s)` for every `s` of a symbol list
(the inner `for symbol in first` loop of `left_table`). -/
def entryPushAll (stId : Nat) (it : Item) (ss : List Nat)
    (acc : List ((Nat × Nat) × List Item)) :
    List ((Nat × Nat) × List Item) :=
  ss.foldl (fun acc2 s => entryPush acc2 (stId, s) it) acc

/-- One step of the candidate fold of `Automaton::left_table`: compute
FIRST of the item's follow sequence and record the item under every
member. -/
def leftCandStep (g : Grammar) (auto : Automaton) (stId : Nat)
    (acc : List ((Nat × Nat) × List Item)) (iid : Nat) :
    List ((Nat × Nat) × List Item) :=
  let item := auto.items.getD iid default
  entryPushAll stId item
    (first_sequence g (item.follow (g.rule item.rule))) acc

/-- The candidate fold of `Automaton::left_table` for one state: every
item is recorded under `(state, s)` for each `s` in the FIRST set of the
item's follow sequence. -/
def leftCandidates (g : Grammar) (auto : Automaton) (st : State) :
    List ((Nat × Nat) × List Item) :=
st.items.foldl (leftCandStep g auto st.id) []

/-- The contribution of one state to the LEFT table: keep the cells with
exactly one candidate whose item is unique, mapping to that item's ID. -/
def leftBlock (g : Grammar) (auto : Automaton) (st : State) :
    List ((Nat × Nat) × Nat) :=
((leftCandidates g auto st).filter (fun p =>
    p.2.length = 1 && (p.2.headD default).unique)).map
  (fun p => (p.1, (p.2.headD default).id))

/-- `Automaton::left_table`: the per-state contributions, collected. -/
def left_table (g : Grammar) (auto : Automaton) :
    List ((Nat × Nat) × Nat) :=
(auto.states.map (leftBlock g auto)).flatten

/-- `Automaton::backtrack_table`: the reversed item transitions whose
target item is unique, keyed by target. -/
def backtrack_table (auto : Automaton) :
    List ((Nat × Nat) × (Nat × Nat)) :=
(auto.item_transitions.reverse).foldl
  (fun acc t =>
    if (auto.items.getD t.tgt.2 default).unique then assocSet acc t.tgt t.frm
    else acc)
  []

/-- The `Data` struct (src/automaton/data.rs); the grammar clone is
passed alongside instead of stored. -/
structure AutoData where
  start_rule : Nat
  items : List (Nat × Item)
  action_table : List ((Nat × Nat) × Action)
  goto_table : List ((Nat × Nat) × Nat)
  left_table : List ((Nat × Nat) × Nat)
  backtrack_table : List ((Nat × Nat) × (Nat × Nat))
deriving Repr

instance : Inhabited AutoData := ⟨⟨0, [], [], [], [], []⟩⟩

/-- `Automaton::data` combined with `Data::new`: fails exactly when the
ACTION table reports a conflict; the `items` map retains the items
mentioned by the BACKTRACK table. -/
def autoData (g : Grammar) (auto : Automaton) :
    Except (Nat × Nat) AutoData :=
  match action_table g auto with
  | .error e => .error e
  | .ok actions =>
    let bt := backtrack_table auto
    let items :=
      bt.foldl
        (fun acc p =>
          assocSet
            (assocSet acc p.1.2 (auto.items.getD p.1.2 default))
            p.2.2 (auto.items.getD p.2.2 default))
        []
    .ok ⟨auto.start_rule, items, actions, goto_table g auto,
      left_table g auto, bt⟩

/-! ### The LR(1) driver (src/parser.rs, `parse_lr`) -/

/-- The loop of `reduce_rule`: pop the body symbols in reverse, skipping
ε, checking that each popped stack symbol matches; `none` is the
`Error::Internal` result. -/
def reduceGo : List Nat → List (Nat × Nat) → Option (List (Nat × Nat))
| [], st => some st
| id :: rest, st =>
  if id = nullId then reduceGo rest st
  else
    match st with
    | [] => none
    | (sym, _) :: st' => if sym = id then reduceGo rest st' else none

/-- `reduce_rule` (the stack's head is the Rust vector's last element). -/
def reduceRule (stack : List (Nat × Nat)) (symbols : List Nat) :
    Option (List (Nat × Nat)) :=
  reduceGo symbols.reverse stack

/-- The error produced when the LR loop breaks without accepting. -/
def finishLRErr (g : Grammar) (input : List Nat) :
    Except ParseError (List Nat) :=
  match nextTok g input with
  | some t => .error (.Parse t)
  | none => .error .EOF

/-- The `loop` of `parse_lr` together with the checks after it.  The
stack holds `(symbol, state)` pairs with the top at the head; an empty
input reads as an ε token.  Fuel exhaustion is `none`; an empty stack
after a Reduce models the `stack.last().unwrap()` panic. -/
def parseLRGo (g : Grammar) (data : AutoData) :
    Nat → List Nat → List (Nat × Nat) → List Nat →
    Option (Except ParseError (List Nat))
| 0, _, _, _ => none
| fuel + 1, input, stack, acc =>
  match stack with
  | [] => some (finishLRErr g input)
  | (_, state) :: _ =>
    let tok := input.headD nullId
    match assocGet data.action_table (state, tok) with
    | none => some (finishLRErr g input)
    | some (.Shift s) =>
      parseLRGo g data fuel input.tail ((tok, s) :: stack) acc
    | some (.Reduce rid) =>
      let rule := g.rule rid
      match reduceRule stack rule.body with
      | none => some (.error .Internal)
      | some stack =>
        match stack with
        | [] => none
        | (_, state') :: _ =>
          match assocGet data.goto_table (state', rule.head) with
          | none => some (.error .Internal)
          | some nxt =>
            parseLRGo g data fuel input ((rule.head, nxt) :: stack)
              (acc ++ [rid])
    | some (.Accept rid) =>
      let rule := g.rule rid
      match reduceRule stack (rule.head :: rule.body) with
      | none => some (.error .Internal)
      | some stack =>
        some (if !stack.isEmpty then .error .Internal
          else .ok (acc ++ [rid]).reverse)

/-- `parse_lr`: drive the tables from stack `[(Start, 0)]` over the
End-delimited input; on success the emitted rules come back reversed. -/
def parse_lr (g : Grammar) (data : AutoData) (fuel : Nat)
    (tokens : List Nat) : Option (Except ParseError (List Nat)) :=
  parseLRGo g data fuel (getInput tokens) [(startId, 0)] []

/-- Decidable equality for `Except` results (not provided by core). -/
instance [DecidableEq e] [DecidableEq a] : DecidableEq (Except e a)
| .error x, .error y =>
  if h : x = y then .isTrue (by rw [h])
  else .isFalse (fun hh => by cases hh; exact h rfl)
| .error _, .ok _ => .isFalse (fun hh => by cases hh)
| .ok _, .error _ => .isFalse (fun hh => by cases hh)
| .ok x, .ok y =>
  if h : x = y then .isTrue (by rw [h])
  else .isFalse (fun hh => by cases hh; exact h rfl)

/-! ### Concrete grammars used by the end-to-end checks

Symbol IDs follow the reader layout: 0 `Start`, 1 `End`, 2 `Null`, then
the user symbols; rule 0 is always the augmentation
`Start → End S End` with `follow = [Null]`. -/

/-- Scenario grammar `E → E + T | T; T → T * F | F; F → ( E ) | id`.
Symbols: 3 `E`, 4 `T`, 5 `F`, 6 `+`, 7 `*`, 8 `(`, 9 `)`, 10 `id`.
Rules: 1 `E→E+T`, 2 `E→T`, 3 `T→T*F`, 4 `T→F`, 5 `F→(E)`, 6 `F→id`. -/
def exprG : Grammar := Grammar.new
  [.Start, .End, .Null,
   .NonTerminal 3 "E", .NonTerminal 4 "T", .NonTerminal 5 "F",
   .Terminal 6 "+", .Terminal 7 "*", .Terminal 8 "(", .Terminal 9 ")",
   .Terminal 10 "id"]
  [⟨0, 0, [1, 3, 1], [2]⟩,
   ⟨1, 3, [3, 6, 4], []⟩,
   ⟨2, 3, [4], []⟩,
   ⟨3, 4, [4, 7, 5], []⟩,
   ⟨4, 4, [5], []⟩,
   ⟨5, 5, [8, 3, 9], []⟩,
   ⟨6, 5, [10], []⟩] 3 []

/-- The canonical LR(1) automaton of `exprG` over the augmentation rule
(24 states); the fuel 400 is ample, see `c1_theorem`. -/
def exprAuto : Automaton := (automatonNew 400 exprG 0).getD ⟨0, [], [], [], []⟩

/-- The extracted tables of `exprAuto`. -/
def exprData : AutoData := ((autoData exprG exprAuto).toOption).getD default

/-- The token sequence `id + id * id`. -/
def exprInput : List Nat := [10, 6, 10, 7, 10]

/-- A grammar with a nullable body: `S → A d; A → B; B → b | ε`.
Symbols: 3 `S`, 4 `A`, 5 `B`, 6 `d`, 7 `b`.  FIRST(`B`) = {b, ε}. -/
def nullableG : Grammar := Grammar.new
  [.Start, .End, .Null, .NonTerminal 3 "S", .NonTerminal 4 "A",
   .NonTerminal 5 "B", .Terminal 6 "d", .Terminal 7 "b"]
  [⟨0, 0, [1, 3, 1], [2]⟩,
   ⟨1, 3, [4, 6], []⟩,
   ⟨2, 4, [5], []⟩,
   ⟨3, 5, [7], []⟩,
   ⟨4, 5, [2], []⟩] 3 []

/-- A grammar where the nonterminal `B` (ID 5) occurs in a rule body but
has no rule of its own: `S → b B`. -/
def noRuleG : Grammar := Grammar.new
  [.Start, .End, .Null, .NonTerminal 3 "S", .Terminal 4 "b",
   .NonTerminal 5 "B"]
  [⟨0, 0, [1, 3, 1], [2]⟩, ⟨1, 3, [4, 5], []⟩] 3 []

/-- A small grammar (`S → a a`) for exercising `wrap_symbols`. -/
def wrapG : Grammar := Grammar.new
  [.Start, .End, .Null, .NonTerminal 3 "S", .Terminal 4 "a"]
  [⟨0, 0, [1, 3, 1], [2]⟩, ⟨1, 3, [4, 4], []⟩] 3 []

/-- `wrapG` after a first `wrap_symbols([S], {End})` call. -/
def wrapG1 : Grammar := ((wrap_symbols wrapG [3] [1]).getD (0, wrapG)).2

/-- The left-recursive grammar of spec scenario 5: `X → X x` with `X`
the start symbol (reachable through the augmentation rule). -/
def leftRecG : Grammar := Grammar.new
  [.Start, .End, .Null, .NonTerminal 3 "X", .Terminal 4 "x"]
  [⟨0, 0, [1, 3, 1], [2]⟩, ⟨1, 3, [3, 4], []⟩] 3 []

/-- A grammar whose start symbol is unrealizable without being
left-recursive: `X → a X`. -/
def notRealG : Grammar := Grammar.new
  [.Start, .End, .Null, .NonTerminal 3 "X", .Terminal 4 "a"]
  [⟨0, 0, [1, 3, 1], [2]⟩, ⟨1, 3, [4, 3], []⟩] 3 []

/-- The ambiguous grammar `E → E + E | id` (symbols: 3 `E`, 4 `+`,
5 `id`), whose LR(1) automaton has a shift/reduce conflict on `+`. -/
def ambSymbols : List Symbol :=
[.Start, .End, .Null, .NonTerminal 3 "E", .Terminal 4 "+", .Terminal 5 "id"]

/-- Rules of the ambiguous grammar. -/
def ambRules : List Rule :=
[⟨0, 0, [1, 3, 1], [2]⟩, ⟨1, 3, [3, 4, 3], []⟩, ⟨2, 3, [5], []⟩]

/-- The ambiguous grammar without an action preference. -/
def ambG : Grammar := Grammar.new ambSymbols ambRules 3 []

/-- The ambiguous grammar with a `reduce` preference on `+`. -/
def ambGreduce : Grammar := Grammar.new ambSymbols ambRules 3 [(4, .Reduce 0)]

/-- The ambiguous grammar with a `shift` preference on `+`. -/
def ambGshift : Grammar := Grammar.new ambSymbols ambRules 3 [(4, .Shift 0)]

/-- The LR(1) automaton of the ambiguous grammar (the automaton does not
depend on the action preferences, only the ACTION table does). -/
def ambAuto : Automaton := (automatonNew 400 ambG 0).getD ⟨0, [], [], [], []⟩

/-- The uniqueness-monotonicity relation on item lists: the list only
grows, every surviving item keeps all fields but `unique`, and a flag
that is set in the new list was already set in the old one. -/
def uniqueMono (old new : List Item) : Prop :=
  old.length ≤ new.length ∧
  ∀ i, i < old.length →
    new.getD i default =
      { old.getD i default with unique := (new.getD i default).unique } ∧
    ((new.getD i default).unique = true →
      (old.getD i default).unique = true)

/-- A concrete closure run for the uniqueness invariant: the initial
item of the expression grammar's start rule. -/
def c8item : Item := Item.new 0 (exprG.rule 0) 2 true

/-- The derivation state seeded exactly as `State::derive` seeds its
closure: the kernel item, both uniqueness variants buffered, queued. -/
def c8ds : DeriveSt :=
  ⟨[c8item], [], bufInsert (bufInsert [] c8item)
    { c8item with unique := !c8item.unique }, [0]⟩

/-- The result of running the closure loop on `c8ds`. -/
def c8ds' : DeriveSt := (closureLoop exprG 0 200 c8ds).getD ⟨[], [], [], []⟩

/-! ## Theorems -/

/-- **C1** (counterexample).  On the grammar `E → E + T | T; T → T * F |
F; F → ( E ) | id` and input `id + id * id`, `parse_lr` does succeed, but
the rule sequence after the augmentation rule is
`E→E+T, T→T*F, F→id, T→F, F→id, E→T, T→F, F→id` — not the leftmost
derivation `E→E+T, E→T, T→F, F→id, T→T*F, T→F, F→id, F→id` the claim
states. -/
theorem c1_counterexample :
    parse_lr exprG exprData 200 exprInput =
        some (.ok [0, 1, 3, 6, 4, 6, 2, 4, 6]) ∧
      [0, 1, 3, 6, 4, 6, 2, 4, 6].drop 1 ≠ [1, 2, 4, 6, 3, 4, 6, 6] := by
  exact ⟨by decide, by decide⟩

/-- **C1** (amended).  The automaton and its tables build without
conflict, and `parse_lr` succeeds with the augmentation rule first,
followed by the *rightmost* derivation
`E→E+T, T→T*F, F→id, T→F, F→id, E→T, T→F, F→id` (reversing the emitted
shift/reduce sequence yields a rightmost, not a leftmost, derivation). -/
theorem c1_theorem :
    (automatonNew 400 exprG 0).isSome ∧
      (autoData exprG exprAuto).isOk ∧
      parse_lr exprG exprData 200 exprInput =
        some (.ok (0 :: [1, 3, 6, 4, 6, 2, 4, 6])) := by
  exact ⟨by decide, by decide, by decide⟩

/-- **C3**.  On `noRuleG` (`S → b B` with `B` ruleless) the earlier
checks pass — the start symbol has a rule, nothing is unreachable,
nothing is left-recursive — and `B` sits in the realizability candidate
set without a `symbol_rules` entry, so the lookup in the realizability
loop hits the out-of-map branch: `verify` panics (`none`) instead of
returning `Err(NotRealizable(B))` as the claim states. -/
theorem c3_theorem :
    (assocGet noRuleG.symbol_rules noRuleG.start_symbol).isSome ∧
      findUnreach noRuleG (reachableSet noRuleG) = none ∧
      findLeftRec noRuleG = none ∧
      (realizeSeed noRuleG).contains 5 = true ∧
      assocGet noRuleG.symbol_rules 5 = none ∧
      verify noRuleG = none := by
  exact ⟨by decide, by decide, by decide, by decide, by decide, by decide⟩

/-- **C4**.  The first `wrap_symbols([S], {End})` call on `wrapG` appends
the fresh nonterminal `S'` (ID 5) and the single rule
`S' → End S` (ID 2) with `follow = [End]`.  A second call with the same
symbol sequence does **not** return rule 2: the reuse check compares the
stored body `End :: σ` against `σ`, never matches, and the call appends a
second wrapper `S''` with a new rule (ID 3), growing both the symbol and
the rule lists. -/
theorem c4_theorem :
    wrap_symbols wrapG [3] [1] = some (2, wrapG1) ∧
      wrapG1.symbols.length = 6 ∧ wrapG1.rules.length = 3 ∧
      wrapG1.rules.getD 2 default = ⟨2, 5, [1, 3], [1]⟩ ∧
      (wrap_symbols wrapG1 [3] [1]).map
          (fun p => (p.1, p.2.symbols.length, p.2.rules.length)) =
        some (3, 7, 4) := by
  exact ⟨by decide, by decide, by decide, by decide, by decide⟩

/-- **C9**.  `first_sequence` on the empty sequence returns the empty set
(not `{ε}`), and `first_follow` compensates: on an empty FIRST it falls
back to the FOLLOW-derived symbols alone, and when FIRST contains ε it
unions the ε-free FIRST with the FOLLOW-derived symbols. -/
theorem c9_theorem :
    (∀ g : Grammar, first_sequence g [] = []) ∧
      (∀ (g : Grammar) (A : Nat),
        first_follow g [] A =
          sortNat ((followD g A).foldl
            (fun acc s => setUnion acc (firstD g s)) [])) ∧
      (∀ (g : Grammar) (α : List Nat) (A : Nat),
        (first_sequence g α).contains nullId = true →
          first_follow g α A =
            sortNat ((followD g A).foldl
              (fun acc s => setUnion acc (firstD g s))
              (setRemove (first_sequence g α) nullId))) := by
  refine ⟨fun g => rfl, fun g A => rfl, fun g α A h => ?_⟩
  simp only [first_follow, h, Bool.or_true, if_pos]

/-- **C9** (witness).  On `nullableG` with `α = [B]`, FIRST(α) = {ε, b}
contains ε, and `first_follow` indeed returns the ε-free FIRST united
with the FOLLOW-derived symbols. -/
theorem c9_witness :
    (first_sequence nullableG [5]).contains nullId = true ∧
      first_follow nullableG [5] 4 =
        sortNat ((followD nullableG 4).foldl
          (fun acc s => setUnion acc (firstD nullableG s))
          (setRemove (first_sequence nullableG [5]) nullId)) :=
  ⟨by decide, c9_theorem.2.2 nullableG [5] 4 (by decide)⟩

/-- **C6**.  `verify` reports the first violation in the fixed order
NoSymbol, Unreachable, LeftRecursive, NotRealizable: an Unreachable error
implies the start symbol had a rule; a LeftRecursive error additionally
implies no unreachable symbol was found; a NotRealizable error implies
the left-recursion scan found nothing.  A LeftRecursive report names a
non-internal head with rules that all start with the head itself.  On the
grammar `X → X x` (X the reachable start symbol), `verify` returns
`LeftRecursive(X)` — not `NotRealizable(X)` — while on `X → a X` it
reaches the realizability stage and returns `NotRealizable(X)`. -/
theorem c6_theorem :
    (∀ (g : Grammar) (s : Symbol),
        verify g = some (.error (.Unreachable s)) →
          (assocGet g.symbol_rules g.start_symbol).isSome) ∧
      (∀ (g : Grammar) (s : Symbol),
        verify g = some (.error (.LeftRecursive s)) →
          (assocGet g.symbol_rules g.start_symbol).isSome ∧
            findUnreach g (reachableSet g) = none) ∧
      (∀ (g : Grammar) (s : Symbol),
        verify g = some (.error (.NotRealizable s)) →
          (assocGet g.symbol_rules g.start_symbol).isSome ∧
            findUnreach g (reachableSet g) = none ∧
            findLeftRec g = none) ∧
      (∀ (g : Grammar) (s : Symbol),
        findLeftRec g = some s →
          ∃ h rids, (h, rids) ∈ g.symbol_rules ∧ s = g.symbol h ∧
            (g.symbol h).is_internal = false ∧ rids ≠ [] ∧
            ∀ rid ∈ rids, (g.rule rid).body.headD 0 = h) ∧
      verify leftRecG = some (.error (.LeftRecursive (.NonTerminal 3 "X"))) ∧
      verify notRealG = some (.error (.NotRealizable (.NonTerminal 3 "X"))) := by
  refine ⟨?_, ?_, ?_, ?_, by decide, by decide⟩
  · intro g s h
    unfold verify at h
    split at h
    · simp at h
    · next hstart =>
      simp only [Bool.not_eq_true, Option.isNone_eq_false_iff] at hstart
      exact hstart
  · intro g s h
    unfold verify at h
    split at h
    · simp at h
    · next hstart =>
      simp only [Bool.not_eq_true, Option.isNone_eq_false_iff] at hstart
      split at h
      · simp at h
      · next hu => exact ⟨hstart, hu⟩
  · intro g s h
    unfold verify at h
    split at h
    · simp at h
    · next hstart =>
      simp only [Bool.not_eq_true, Option.isNone_eq_false_iff] at hstart
      split at h
      · simp at h
      · next hu =>
        split at h
        · simp at h
        · next hl => exact ⟨hstart, hu, hl⟩
  · intro g s h
    unfold findLeftRec at h
    rw [Option.map_eq_some'] at h
    obtain ⟨p, hp, rfl⟩ := h
    have hmem := List.mem_of_find?_eq_some hp
    have hpred := List.find?_some hp
    simp only [Bool.and_eq_true, Bool.not_eq_true', List.all_eq_true] at hpred
    obtain ⟨⟨hint, hne⟩, hall⟩ := hpred
    exact ⟨p.1, p.2, hmem, rfl, hint, by simpa using hne,
      fun rid hr => by simpa using hall rid hr⟩

/-- **C6** (witness).  Applying the NotRealizable-order conjunct at the
grammar `X → a X`: the start symbol has a rule, nothing is unreachable
and nothing is left-recursive when `verify` reports `NotRealizable`. -/
theorem c6_witness :
    verify notRealG = some (.error (.NotRealizable (.NonTerminal 3 "X"))) ∧
      ((assocGet notRealG.symbol_rules notRealG.start_symbol).isSome ∧
        findUnreach notRealG (reachableSet notRealG) = none ∧
        findLeftRec notRealG = none) :=
  ⟨by decide,
    c6_theorem.2.2.1 notRealG (.NonTerminal 3 "X") (by decide)⟩

/-- A single ACTION insertion errs exactly on an occupied cell whose
symbol has no action preference, and the error names that cell. -/
theorem actionInsertError (g : Grammar) (tbl : List ((Nat × Nat) × Action))
    (k : Nat × Nat) (a : Action) (c : Nat × Nat) :
    actionInsert g tbl k a = .error c ↔
      (assocGet tbl k).isSome ∧ assocGet g.actions k.2 = none ∧ c = k := by
  unfold actionInsert
  rcases h1 : assocGet tbl k with _ | v
  · simp [h1]
  · rcases h2 : assocGet g.actions k.2 with _ | p
    · simp [h2, eq_comm]
    · simp [h2]

/-- `actionEntriesGo` fails with `c` exactly when some entry `(k, a)` of
the list is reached with its cell already occupied and no preference for
its symbol; `c` is that cell. -/
theorem actionEntriesError (g : Grammar) :
    ∀ (entries tbl : List ((Nat × Nat) × Action)) (c : Nat × Nat),
      actionEntriesGo g entries tbl = .error c ↔
        ∃ pre k a post, entries = pre ++ (k, a) :: post ∧
          ∃ t, actionEntriesGo g pre tbl = .ok t ∧
            (assocGet t k).isSome ∧ assocGet g.actions k.2 = none ∧
            c = k := by
  intro entries
  induction entries with
  | nil =>
    intro tbl c
    constructor
    · intro h; simp [actionEntriesGo] at h
    · rintro ⟨pre, k, a, post, hsplit, -⟩
      exact absurd hsplit (by simp)
  | cons e rest ih =>
    obtain ⟨k0, a0⟩ := e
    intro tbl c
    rcases hins : actionInsert g tbl k0 a0 with e1 | t1
    · have he1 := (actionInsertError g tbl k0 a0 e1).mp hins
      constructor
      · intro h
        simp only [actionEntriesGo, hins] at h
        refine ⟨[], k0, a0, rest, rfl, tbl, rfl, he1.1, he1.2.1, ?_⟩
        cases h
        exact he1.2.2
      · rintro ⟨pre, k, a, post, hsplit, t, hok, hocc, hpref, hc⟩
        subst hc
        cases pre with
        | nil =>
          simp only [List.nil_append, List.cons.injEq, Prod.mk.injEq] at hsplit
          obtain ⟨⟨hk, ha⟩, hpost⟩ := hsplit
          subst hk
          simp only [actionEntriesGo] at hok
          cases hok
          simp only [actionEntriesGo, hins]
          rw [he1.2.2]
        | cons e' pre' =>
          simp only [List.cons_append, List.cons.injEq] at hsplit
          obtain ⟨he', hrest⟩ := hsplit
          rw [← he'] at hok
          simp only [actionEntriesGo, hins] at hok
          exact absurd hok (by simp)
    · constructor
      · intro h
        simp only [actionEntriesGo, hins] at h
        obtain ⟨pre', k, a, post, hsplit, t, hok, hocc, hpref, hc⟩ :=
          (ih t1 c).mp h
        exact ⟨(k0, a0) :: pre', k, a, post, by rw [hsplit, List.cons_append],
          t, by simpa only [actionEntriesGo, hins] using hok, hocc, hpref,
          hc⟩
      · rintro ⟨pre, k, a, post, hsplit, t, hok, hocc, hpref, hc⟩
        subst hc
        cases pre with
        | nil =>
          simp only [List.nil_append, List.cons.injEq, Prod.mk.injEq] at hsplit
          obtain ⟨⟨hk, ha⟩, hpost⟩ := hsplit
          subst hk
          simp only [actionEntriesGo] at hok
          cases hok
          have hbad : actionInsert g tbl k0 a0 = .error k0 := by
            unfold actionInsert
            rcases h1 : assocGet tbl k0 with _ | v
            · rw [h1] at hocc; simp at hocc
            · rw [hpref]
          rw [hbad] at hins
          cases hins
        | cons e' pre' =>
          simp only [List.cons_append, List.cons.injEq] at hsplit
          obtain ⟨he', hrest⟩ := hsplit
          subst hrest
          rw [← he'] at hok
          simp only [actionEntriesGo, hins] at hok
          simp only [actionEntriesGo, hins]
          exact (ih t1 c).mpr ⟨pre', c, a, post, rfl, t, hok, hocc, hpref, rfl⟩

/-- **C5**.  One reduce/accept insertion into the ACTION table errs with
`ActionConflict(state, symbol)` exactly when the `(state, symbol)` cell is
occupied and the grammar has no action preference for the symbol; an
occupied cell with a preference resolves silently — Reduce replaces the
entry with the new action, Shift keeps the old entry; a free cell simply
receives the action.  Lifted to the whole build, the table construction
fails with `ActionConflict(state, symbol)` iff some entry reaches the
already-occupied cell `(state, symbol)` whose symbol has no preference. -/
theorem c5_theorem :
    (∀ (g : Grammar) (tbl : List ((Nat × Nat) × Action)) (k : Nat × Nat)
        (a : Action) (c : Nat × Nat),
        actionInsert g tbl k a = .error c ↔
          (assocGet tbl k).isSome ∧ assocGet g.actions k.2 = none ∧
            c = k) ∧
      (∀ (g : Grammar) (tbl : List ((Nat × Nat) × Action)) (k : Nat × Nat)
        (a : Action) (p : Action),
        assocGet g.actions k.2 = some p → (assocGet tbl k).isSome →
          actionInsert g tbl k a =
            .ok (if p.is_reduce then assocSet tbl k a else tbl)) ∧
      (∀ (g : Grammar) (tbl : List ((Nat × Nat) × Action)) (k : Nat × Nat)
        (a : Action),
        assocGet tbl k = none →
          actionInsert g tbl k a = .ok (assocSet tbl k a)) ∧
      (∀ (g : Grammar) (entries tbl : List ((Nat × Nat) × Action))
        (c : Nat × Nat),
        actionEntriesGo g entries tbl = .error c ↔
          ∃ pre k a post, entries = pre ++ (k, a) :: post ∧
            ∃ t, actionEntriesGo g pre tbl = .ok t ∧
              (assocGet t k).isSome ∧ assocGet g.actions k.2 = none ∧
              c = k) := by
  refine ⟨actionInsertError, ?_, ?_, actionEntriesError⟩
  · intro g tbl k a p hp hocc
    unfold actionInsert
    rcases h1 : assocGet tbl k with _ | v
    · rw [h1] at hocc; simp at hocc
    · rw [hp]
  · intro g tbl k a h
    unfold actionInsert
    rw [h]

/-- **C5** (witness).  On the ambiguous grammar `E → E + E | id`: with no
preference the build fails with the conflict at state 6 on `+`; a single
insertion into an occupied cell errs likewise; with a `reduce` preference
the insertion replaces the entry, with a `shift` preference it keeps it,
and the full table builds succeed. -/
theorem c5_witness :
    action_table ambG ambAuto = .error (6, 4) ∧
      (action_table ambGreduce ambAuto).isOk ∧
      (action_table ambGshift ambAuto).isOk ∧
      actionInsert ambG [((6, 4), .Shift 9)] (6, 4) (.Reduce 1) =
        .error (6, 4) ∧
      actionInsert ambGreduce [((6, 4), .Shift 9)] (6, 4) (.Reduce 1) =
        .ok (assocSet [((6, 4), .Shift 9)] (6, 4) (.Reduce 1)) ∧
      actionInsert ambGshift [((6, 4), .Shift 9)] (6, 4) (.Reduce 1) =
        .ok [((6, 4), .Shift 9)] := by
  refine ⟨by decide, by decide, by decide, ?_, ?_, ?_⟩
  · exact (c5_theorem.1 ambG [((6, 4), .Shift 9)] (6, 4) (.Reduce 1)
      (6, 4)).mpr ⟨by decide, by decide, rfl⟩
  · have := c5_theorem.2.1 ambGreduce [((6, 4), .Shift 9)] (6, 4)
      (.Reduce 1) (.Reduce 0) (by decide) (by decide)
    simpa using this
  · have := c5_theorem.2.1 ambGshift [((6, 4), .Shift 9)] (6, 4)
      (.Reduce 1) (.Shift 0) (by decide) (by decide)
    simpa using this

/-- Lookup on a cons cell of an association list. -/
theorem assocGet_cons [DecidableEq κ] (a : κ) (b : α) (l : List (κ × α))
    (k : κ) :
    assocGet ((a, b) :: l) k = if a = k then some b else assocGet l k := by
  simp only [assocGet, List.find?]
  by_cases h : a = k <;> simp [h]

/-- Association lookup after an insertion. -/
theorem assocGet_assocSet [DecidableEq κ] (l : List (κ × α)) (k0 k : κ)
    (v : α) :
    assocGet (assocSet l k0 v) k =
      if k = k0 then some v else assocGet l k := by
  induction l with
  | nil =>
    simp only [assocSet]
    rw [assocGet_cons]
    by_cases h : k = k0
    · simp [h]
    · rw [if_neg (show ¬k0 = k from fun hh => h hh.symm), if_neg h]
  | cons p rest ih =>
    obtain ⟨k', v'⟩ := p
    by_cases h1 : k' = k0
    · subst h1
      have hset : assocSet ((k', v') :: rest) k' v = (k', v) :: rest := by
        simp [assocSet]
      rw [hset, assocGet_cons, assocGet_cons]
      by_cases h : k' = k
      · subst h; simp
      · rw [if_neg h, if_neg (show ¬k = k' from fun hh => h hh.symm),
          if_neg h]
    · have hset : assocSet ((k', v') :: rest) k0 v =
          (k', v') :: assocSet rest k0 v := by
        simp [assocSet, h1]
      rw [hset, assocGet_cons, assocGet_cons, ih]
      by_cases h2 : k' = k
      · subst h2
        rw [if_pos rfl, if_pos rfl,
          if_neg (show ¬k' = k0 from h1)]
      · rw [if_neg h2, if_neg h2]

/-- `setInsert` never empties a set. -/
theorem setInsert_ne_nil (l : List Nat) (a : Nat) : setInsert l a ≠ [] := by
  unfold setInsert
  split
  · next h =>
    intro hl
    subst hl
    simp at h
  · simp

/-- Membership survives `setInsert`. -/
theorem mem_setInsert (l : List Nat) (a x : Nat) (h : x ∈ l) :
    x ∈ setInsert l a := by
  unfold setInsert
  split <;> simp [h]

/-- The inserted element belongs to the result of `setInsert`. -/
theorem mem_setInsert_self (l : List Nat) (a : Nat) :
    a ∈ setInsert l a := by
  unfold setInsert
  split
  · next h => simpa using h
  · simp

/-- The conflict set of `llInsertCells` only grows. -/
theorem llInsertCellsConfMono (r : Rule) :
    ∀ (symbols : List Nat) (tbl : List ((Nat × Nat) × Nat))
      (conf : List Nat) (x : Nat), x ∈ conf →
      x ∈ (llInsertCells r symbols tbl conf).2 := by
  intro symbols
  induction symbols with
  | nil => intro tbl conf x h; simpa [llInsertCells] using h
  | cons s rest ih =>
    intro tbl conf x h
    simp only [llInsertCells]
    split
    · exact ih _ _ x (mem_setInsert _ _ _ h)
    · exact ih _ _ x h

/-- Characterization of `llInsertCells` when it reports no conflict: the
incoming conflicts were empty, every written cell was previously free, and
the resulting table holds `r.id` exactly at `(r.head, s)` for the written
symbols, elsewhere whatever the incoming table held. -/
theorem llInsertCellsChar (r : Rule) :
    ∀ (symbols : List Nat) (tbl : List ((Nat × Nat) × Nat))
      (conf : List Nat),
      (llInsertCells r symbols tbl conf).2 = [] →
        conf = [] ∧
        (∀ s ∈ symbols, assocGet tbl (r.head, s) = none) ∧
        (∀ (k : Nat × Nat) (rid : Nat),
          assocGet (llInsertCells r symbols tbl conf).1 k = some rid ↔
            ((k.1 = r.head ∧ k.2 ∈ symbols) ∧ rid = r.id) ∨
            (assocGet tbl k = some rid ∧
              ¬(k.1 = r.head ∧ k.2 ∈ symbols))) := by
  intro symbols
  induction symbols with
  | nil =>
    intro tbl conf h
    simp only [llInsertCells] at h ⊢
    exact ⟨h, by simp, fun k rid => by simp⟩
  | cons s rest ih =>
    intro tbl conf h
    have hocc : assocGet tbl (r.head, s) = none := by
      rcases hx : assocGet tbl (r.head, s) with _ | v
      · rfl
      · exfalso
        have hred : llInsertCells r (s :: rest) tbl conf =
            llInsertCells r rest (assocSet tbl (r.head, s) r.id)
              (setInsert conf r.head) := by
          simp [llInsertCells, hx]
        rw [hred] at h
        have := llInsertCellsConfMono r rest
          (assocSet tbl (r.head, s) r.id) (setInsert conf r.head) r.head
          (mem_setInsert_self conf r.head)
        rw [h] at this
        simp at this
    have hred : llInsertCells r (s :: rest) tbl conf =
        llInsertCells r rest (assocSet tbl (r.head, s) r.id) conf := by
      simp [llInsertCells, hocc]
    rw [hred] at h
    obtain ⟨hconf, hfree, hiff⟩ := ih (assocSet tbl (r.head, s) r.id) conf h
    refine ⟨hconf, ?_, ?_⟩
    · intro s' hs'
      rcases List.mem_cons.mp hs' with rfl | hs'
      · exact hocc
      · have hf := hfree s' hs'
        rw [assocGet_assocSet] at hf
        split at hf
        · cases hf
        · exact hf
    · intro k rid
      rw [hred, hiff k rid, assocGet_assocSet]
      by_cases hk1 : k.1 = r.head
      · by_cases hk2 : k.2 = s
        · have hk : k = (r.head, s) := Prod.ext hk1 hk2
          rw [if_pos hk]
          constructor
          · rintro (⟨⟨-, h2⟩, rfl⟩ | ⟨hsome, -⟩)
            · exact Or.inl ⟨⟨hk1, List.mem_cons_of_mem _ h2⟩, rfl⟩
            · cases hsome
              exact Or.inl ⟨⟨hk1, by rw [hk2]; exact List.mem_cons_self s rest⟩,
                rfl⟩
          · rintro (⟨⟨-, h2⟩, rfl⟩ | ⟨hsome, hno⟩)
            · by_cases hmem : k.2 ∈ rest
              · exact Or.inl ⟨⟨hk1, hmem⟩, rfl⟩
              · exact Or.inr ⟨rfl, fun hc => hmem hc.2⟩
            · rw [hk, hocc] at hsome
              cases hsome
        · have hk : ¬(k = (r.head, s)) := fun hh => hk2 (by rw [hh])
          rw [if_neg hk]
          constructor
          · rintro (⟨⟨h1, h2⟩, rfl⟩ | ⟨hsome, hno⟩)
            · exact Or.inl ⟨⟨h1, List.mem_cons_of_mem _ h2⟩, rfl⟩
            · refine Or.inr ⟨hsome, ?_⟩
              rintro ⟨h1, h2⟩
              rcases List.mem_cons.mp h2 with h' | h'
              · exact hk2 h'
              · exact hno ⟨h1, h'⟩
          · rintro (⟨⟨h1, h2⟩, rfl⟩ | ⟨hsome, hno⟩)
            · rcases List.mem_cons.mp h2 with h' | h'
              · exact absurd h' hk2
              · exact Or.inl ⟨⟨h1, h'⟩, rfl⟩
            · refine Or.inr ⟨hsome, ?_⟩
              rintro ⟨h1, h2⟩
              exact hno ⟨h1, List.mem_cons_of_mem _ h2⟩
      · have hk : ¬(k = (r.head, s)) := fun hh => hk1 (by rw [hh])
        rw [if_neg hk]
        constructor
        · rintro (⟨⟨h1, -⟩, -⟩ | ⟨hsome, -⟩)
          · exact absurd h1 hk1
          · exact Or.inr ⟨hsome, fun hc => hk1 hc.1⟩
        · rintro (⟨⟨h1, -⟩, -⟩ | ⟨hsome, -⟩)
          · exact absurd h1 hk1
          · exact Or.inr ⟨hsome, fun hc => hk1 hc.1⟩

/-- The conflict set of the LL table loop only grows. -/
theorem llTableGoConfMono (g : Grammar) (ign : List Nat) :
    ∀ (rules : List Rule) (tbl : List ((Nat × Nat) × Nat))
      (conf : List Nat) (x : Nat), x ∈ conf →
      x ∈ (llTableGo g ign rules tbl conf).2 := by
  intro rules
  induction rules with
  | nil => intro tbl conf x h; simpa [llTableGo] using h
  | cons r rest ih =>
    intro tbl conf x h
    simp only [llTableGo]
    split
    · exact ih _ _ x h
    · exact ih _ _ x (llInsertCellsConfMono r (llSelect g r) tbl conf x h)

/-- Characterization of the LL table loop when it reports no conflict:
the incoming conflicts were empty, every cell written by some rule of the
list was previously free, and a cell of the resulting table holds `rid`
exactly when some rule of the list writes it with `rid` its ID, or the
incoming table already held `rid` and no rule writes the cell. -/
theorem llTableGoChar (g : Grammar) (ign : List Nat) :
    ∀ (rules : List Rule) (tbl : List ((Nat × Nat) × Nat))
      (conf : List Nat),
      (llTableGo g ign rules tbl conf).2 = [] →
        conf = [] ∧
        (∀ r ∈ rules, ∀ k : Nat × Nat, llWrites g ign r k →
          assocGet tbl k = none) ∧
        (∀ (k : Nat × Nat) (rid : Nat),
          assocGet (llTableGo g ign rules tbl conf).1 k = some rid ↔
            (∃ r ∈ rules, llWrites g ign r k ∧ rid = r.id) ∨
            (assocGet tbl k = some rid ∧
              ¬∃ r ∈ rules, llWrites g ign r k)) := by
  intro rules
  induction rules with
  | nil =>
    intro tbl conf h
    simp only [llTableGo] at h ⊢
    exact ⟨h, by simp, fun k rid => by simp⟩
  | cons r rest ih =>
    intro tbl conf h
    by_cases hig : ign.contains r.head
    · have hmem : r.head ∈ ign := by simpa using hig
      have hred : llTableGo g ign (r :: rest) tbl conf =
          llTableGo g ign rest tbl conf := by
        simp [llTableGo, hmem]
      rw [hred] at h
      obtain ⟨hconf, hocc, hiff⟩ := ih tbl conf h
      have hnr : ∀ k : Nat × Nat, ¬llWrites g ign r k := by
        rintro k ⟨h1, -⟩
        rw [hig] at h1
        cases h1
      refine ⟨hconf, ?_, ?_⟩
      · intro r' hr' k hw
        rcases List.mem_cons.mp hr' with rfl | hr'
        · exact absurd hw (hnr k)
        · exact hocc r' hr' k hw
      · intro k rid
        rw [hred, hiff k rid]
        constructor
        · rintro (⟨r', hr', hw, hid⟩ | ⟨hsome, hno⟩)
          · exact Or.inl ⟨r', List.mem_cons_of_mem _ hr', hw, hid⟩
          · refine Or.inr ⟨hsome, ?_⟩
            rintro ⟨r', hr', hw⟩
            rcases List.mem_cons.mp hr' with rfl | hr'
            · exact hnr k hw
            · exact hno ⟨r', hr', hw⟩
        · rintro (⟨r', hr', hw, hid⟩ | ⟨hsome, hno⟩)
          · rcases List.mem_cons.mp hr' with rfl | hr'
            · exact absurd hw (hnr k)
            · exact Or.inl ⟨r', hr', hw, hid⟩
          · exact Or.inr ⟨hsome, fun ⟨r', hr', hw⟩ =>
              hno ⟨r', List.mem_cons_of_mem _ hr', hw⟩⟩
    · have hmem : r.head ∉ ign := by simpa using hig
      have hred : llTableGo g ign (r :: rest) tbl conf =
          llTableGo g ign rest
            (llInsertCells r (llSelect g r) tbl conf).1
            (llInsertCells r (llSelect g r) tbl conf).2 := by
        simp [llTableGo, hmem]
      rw [hred] at h
      have hc1 : (llInsertCells r (llSelect g r) tbl conf).2 = [] := by
        rcases hx : (llInsertCells r (llSelect g r) tbl conf).2 with _ | ⟨c, cs⟩
        · rfl
        · exfalso
          have := llTableGoConfMono g ign rest
            (llInsertCells r (llSelect g r) tbl conf).1
            (llInsertCells r (llSelect g r) tbl conf).2 c
            (by rw [hx]; exact List.mem_cons_self c cs)
          rw [h] at this
          simp at this
      obtain ⟨hconf, hfree1, hiff1⟩ :=
        llInsertCellsChar r (llSelect g r) tbl conf hc1
      rw [hc1] at h
      obtain ⟨-, hocc2, hiff2⟩ := ih _ _ h
      have hwr : ∀ k : Nat × Nat, llWrites g ign r k ↔
          (k.1 = r.head ∧ k.2 ∈ llSelect g r) := by
        intro k
        constructor
        · rintro ⟨-, h1, h2⟩; exact ⟨h1, h2⟩
        · rintro ⟨h1, h2⟩
          exact ⟨by simpa using hig, h1, h2⟩
      refine ⟨hconf, ?_, ?_⟩
      · intro r' hr' k hw
        rcases List.mem_cons.mp hr' with rfl | hr'
        · obtain ⟨hh1, hh2⟩ := (hwr k).mp hw
          have hf := hfree1 k.2 hh2
          rw [← hh1, Prod.mk.eta] at hf
          exact hf
        · have h2 := hocc2 r' hr' k hw
          rcases hx : assocGet tbl k with _ | v
          · rfl
          · exfalso
            by_cases hwk : k.1 = r.head ∧ k.2 ∈ llSelect g r
            · have := (hiff1 k r.id).mpr (Or.inl ⟨hwk, rfl⟩)
              rw [h2] at this
              cases this
            · have := (hiff1 k v).mpr (Or.inr ⟨hx, hwk⟩)
              rw [h2] at this
              cases this
      · intro k rid
        rw [hred, hc1, hiff2 k rid]
        constructor
        · rintro (⟨r', hr', hw, hid⟩ | ⟨hsome, hno⟩)
          · exact Or.inl ⟨r', List.mem_cons_of_mem _ hr', hw, hid⟩
          · rcases ((hiff1 k rid).mp hsome) with ⟨hwk, hid⟩ | ⟨hsome', hnk⟩
            · exact Or.inl ⟨r, List.mem_cons_self r rest, (hwr k).mpr hwk,
                hid⟩
            · refine Or.inr ⟨hsome', ?_⟩
              rintro ⟨r', hr', hw⟩
              rcases List.mem_cons.mp hr' with rfl | hr'
              · exact hnk ((hwr k).mp hw)
              · exact hno ⟨r', hr', hw⟩
        · rintro (⟨r', hr', hw, hid⟩ | ⟨hsome, hno⟩)
          · rcases List.mem_cons.mp hr' with rfl | hr'
            · refine Or.inr ⟨(hiff1 k rid).mpr
                (Or.inl ⟨(hwr k).mp hw, hid⟩), ?_⟩
              rintro ⟨r'', hr'', hw''⟩
              have := hocc2 r'' hr'' k hw''
              rw [(hiff1 k rid).mpr (Or.inl ⟨(hwr k).mp hw, hid⟩)] at this
              cases this
            · exact Or.inl ⟨r', hr', hw, hid⟩
          · have hnk : ¬(k.1 = r.head ∧ k.2 ∈ llSelect g r) :=
              fun hwk => hno ⟨r, List.mem_cons_self r rest, (hwr k).mpr hwk⟩
            refine Or.inr ⟨(hiff1 k rid).mpr (Or.inr ⟨hsome, hnk⟩), ?_⟩
            rintro ⟨r', hr', hw⟩
            exact hno ⟨r', List.mem_cons_of_mem _ hr', hw⟩

/-- **C2** (counterexample).  On the grammar `S → A d; A → B; B → b | ε`
(`A` has ID 4, `b` ID 7): the LL table builds without conflict; for the
rule `A → B`, FIRST of the body contains both ε and `b`; yet the table
has no entry at `(A, b)` — the claim demands `table[(A, b)] = A → B`.
Only `(A, d)` with `d ∈ FOLLOW(A)` is present. -/
theorem c2_counterexample :
    get_ll_parsing_table nullableG [] =
        .ok [((0, 1), 0), ((3, 6), 1), ((3, 7), 1), ((4, 6), 2),
          ((5, 7), 3), ((5, 6), 4)] ∧
      nullId ∈ first_sequence nullableG (nullableG.rule 2).body ∧
      (7 : Nat) ∈ first_sequence nullableG (nullableG.rule 2).body ∧
      (nullableG.rule 2).head = 4 ∧ (7 : Nat) ≠ nullId ∧
      assocGet [((0, 1), 0), ((3, 6), 1), ((3, 7), 1), ((4, 6), 2),
        ((5, 7), 3), ((5, 6), 4)] ((4 : Nat), (7 : Nat)) = none := by
  exact ⟨by decide, by decide, by decide, by decide, by decide, by decide⟩

/-- Characterization of a successfully built LL table: cell `(h, s)`
holds `rid` exactly when some non-ignored rule with head `h` and ID `rid`
selects `s`. -/
theorem llTableOkChar (g : Grammar) (ignored : List Nat)
    (tbl : List ((Nat × Nat) × Nat))
    (htbl : get_ll_parsing_table g ignored = .ok tbl) :
    ∀ (h s rid : Nat),
      assocGet tbl (h, s) = some rid ↔
        ∃ r ∈ g.rules, ignored.contains r.head = false ∧ r.head = h ∧
          s ∈ llSelect g r ∧ rid = r.id := by
  intro h s rid
  unfold get_ll_parsing_table at htbl
  rcases hgo : llTableGo g ignored g.rules [] [] with ⟨tbl', conf'⟩
  rw [hgo] at htbl
  simp only at htbl
  by_cases hc : conf'.isEmpty
  · rw [if_pos hc] at htbl
    cases htbl
    have hnil : (llTableGo g ignored g.rules [] []).2 = [] := by
      rw [hgo]
      exact List.isEmpty_iff.mp hc
    obtain ⟨-, -, hiff⟩ := llTableGoChar g ignored g.rules [] [] hnil
    have := hiff (h, s) rid
    rw [hgo] at this
    simp only at this
    rw [this]
    constructor
    · rintro (⟨r, hr, ⟨hig, hh, hsmem⟩, hid⟩ | ⟨hsome, -⟩)
      · exact ⟨r, hr, hig, hh.symm, hsmem, hid⟩
      · simp [assocGet] at hsome
    · rintro ⟨r, hr, hig, hh, hsmem, hid⟩
      exact Or.inl ⟨r, hr, ⟨hig, hh.symm, hsmem⟩, hid⟩
  · rw [if_neg hc] at htbl
    cases htbl

/-- **C2** (amended).  When `get_ll_parsing_table` succeeds, the table
maps `(h, s)` to rule `r` exactly when `r`'s head is `h` (and not
ignored) and `s` lies in the selection of `r` — which is FOLLOW(h)
*replacing the whole set* when ε ∈ FIRST(body), and FIRST(body)
otherwise. -/
theorem c2_theorem (g : Grammar) (ignored : List Nat)
    (tbl : List ((Nat × Nat) × Nat))
    (htbl : get_ll_parsing_table g ignored = .ok tbl) :
    ∀ (h s rid : Nat),
      assocGet tbl (h, s) = some rid ↔
        ∃ r ∈ g.rules, ignored.contains r.head = false ∧ r.head = h ∧
          s ∈ llSelect g r ∧ rid = r.id :=
  llTableOkChar g ignored tbl htbl

/-- **C2** (witness).  Instantiating the amended characterization on
`nullableG`: the cell `(A, d)` holds the rule `A → B` because
`d ∈ FOLLOW(A)` — the selection of `A → B` after ε replaced it. -/
theorem c2_witness :
    assocGet [((0, 1), 0), ((3, 6), 1), ((3, 7), 1), ((4, 6), 2),
        ((5, 7), 3), ((5, 6), 4)] ((4 : Nat), (6 : Nat)) = some 2 :=
  (c2_theorem nullableG []
    [((0, 1), 0), ((3, 6), 1), ((3, 7), 1), ((4, 6), 2),
      ((5, 7), 3), ((5, 6), 4)] (by decide) 4 6 2).mpr
    ⟨⟨2, 4, [5], []⟩, by decide, by decide, by decide, by decide, rfl⟩

/-- The post-loop checks of `parse_ll` only succeed with the accumulated
rules. -/
theorem finishLL_ok (g : Grammar) (input stack acc rs : List Nat)
    (h : finishLL g input stack acc = .ok rs) : rs = acc := by
  unfold finishLL at h
  split at h
  · cases h
  · split at h
    · cases h; rfl
    · cases h

/-- The LL driver loop only extends its accumulator: a success returns a
list the accumulator is a prefix of. -/
theorem parseLLGo_prefix (g : Grammar) (tbl : List ((Nat × Nat) × Nat)) :
    ∀ (fuel : Nat) (input stack acc rs : List Nat),
      parseLLGo g tbl fuel input stack acc = some (.ok rs) →
        acc <+: rs := by
  intro fuel
  induction fuel with
  | zero => intro input stack acc rs h; cases h
  | succ f ih =>
    intro input stack acc rs h
    match input, stack with
    | [], _ =>
      simp only [parseLLGo] at h
      rw [finishLL_ok g _ _ _ _ (Option.some.inj h)]
    | t :: ti, [] =>
      simp only [parseLLGo] at h
      rw [finishLL_ok g _ _ _ _ (Option.some.inj h)]
    | t :: ti, sym :: st =>
      simp only [parseLLGo] at h
      rcases hl : assocGet tbl (sym, t) with _ | rid
      · simp only [hl] at h
        by_cases hs : sym = t
        · rw [if_pos hs] at h
          exact ih _ _ _ _ h
        · rw [if_neg hs] at h
          rw [finishLL_ok g _ _ _ _ (Option.some.inj h)]
      · simp only [hl] at h
        exact (List.prefix_append acc [rid]).trans (ih _ _ _ _ h)

/-- The invalid-exit error of the LR loop is never a success. -/
theorem finishLRErr_ne_ok (g : Grammar) (input rs : List Nat) :
    finishLRErr g input ≠ .ok rs := by
  unfold finishLRErr
  split <;> intro h <;> cases h

/-- A successful LR loop run ends in an Accept action, and the first rule
of the returned (already reversed) sequence is the accepted rule. -/
theorem parseLRGo_accept (g : Grammar) (data : AutoData) :
    ∀ (fuel : Nat) (input : List Nat) (stack : List (Nat × Nat))
      (acc rs : List Nat),
      parseLRGo g data fuel input stack acc = some (.ok rs) →
        ∃ st tok r, assocGet data.action_table (st, tok) =
            some (.Accept r) ∧ rs.head? = some r := by
  intro fuel
  induction fuel with
  | zero => intro input stack acc rs h; cases h
  | succ f ih =>
    intro input stack acc rs h
    match stack with
    | [] =>
      simp only [parseLRGo] at h
      exact absurd (Option.some.inj h) (finishLRErr_ne_ok g input rs)
    | (sym, state) :: st =>
      simp only [parseLRGo] at h
      rcases ha : assocGet data.action_table (state, input.headD nullId)
        with _ | act
      · simp only [ha] at h
        exact absurd (Option.some.inj h) (finishLRErr_ne_ok g input rs)
      · cases act with
        | Shift s' =>
          simp only [ha] at h
          exact ih _ _ _ _ h
        | Reduce rid =>
          simp only [ha] at h
          rcases hr : reduceRule ((sym, state) :: st) (g.rule rid).body
            with _ | stack'
          · simp only [hr] at h
            cases Option.some.inj h
          · simp only [hr] at h
            match stack' with
            | [] => simp at h
            | (sym', state') :: st' =>
              rcases hg : assocGet data.goto_table (state', (g.rule rid).head)
                with _ | nxt
              · simp only [hg] at h
                cases Option.some.inj h
              · simp only [hg] at h
                exact ih _ _ _ _ h
        | Accept rid =>
          simp only [ha] at h
          rcases hr : reduceRule ((sym, state) :: st)
              ((g.rule rid).head :: (g.rule rid).body) with _ | stack'
          · simp only [hr] at h
            cases Option.some.inj h
          · simp only [hr] at h
            by_cases hst : stack'.isEmpty
            · rw [if_neg (by simp [hst])] at h
              have hrs := Except.ok.inj (Option.some.inj h)
              refine ⟨state, input.headD nullId, rid, ha, ?_⟩
              rw [← hrs]
              simp
            · rw [if_pos (by simpa using hst)] at h
              cases Option.some.inj h

/-- **C10**.  A successful `parse_ll` starts with the augmentation rule:
when every rule headed by `Start` carries ID 0 — the reader guarantees
rule 0 is the unique such rule — the first returned rule is rule 0, and
such a rule exists in the grammar.  A successful `parse_lr` starts with
the rule of the Accept action the automaton fired: its first element is a
rule `r` with `Accept(r)` in the ACTION table.  Consumers therefore skip
the first element to obtain the user-grammar derivation. -/
theorem c10_theorem :
    (∀ (g : Grammar) (fuel : Nat) (tokens rs : List Nat),
        parse_ll g fuel tokens = some (.ok rs) →
        (∀ r ∈ g.rules, r.head = startId → r.id = 0) →
          rs.head? = some 0 ∧ ∃ r ∈ g.rules, r.id = 0 ∧ r.head = startId) ∧
      (∀ (g : Grammar) (data : AutoData) (fuel : Nat) (tokens rs : List Nat),
        parse_lr g data fuel tokens = some (.ok rs) →
          ∃ st tok r, assocGet data.action_table (st, tok) =
            some (.Accept r) ∧ rs.head? = some r) := by
  constructor
  · intro g fuel tokens rs h hstart
    unfold parse_ll at h
    rcases htbl : get_ll_parsing_table g [] with confs | tbl
    · rw [htbl] at h; cases h
    · rw [htbl] at h
      match fuel with
      | 0 => cases h
      | f + 1 =>
        rw [show getInput tokens = endId :: (tokens ++ [endId]) from rfl]
          at h
        simp only [parseLLGo] at h
        rcases hl : assocGet tbl (startId, endId) with _ | rid
        · simp only [hl] at h
          rw [if_neg (by decide)] at h
          have hfin := Option.some.inj h
          unfold finishLL at hfin
          split at hfin
          · cases hfin
          · split at hfin
            · simp at *
            · cases hfin
        · simp only [hl] at h
          have hpre := parseLLGo_prefix g tbl f _ _ _ _ h
          obtain ⟨r, hr, -, hhead, -, hid⟩ :=
            (llTableOkChar g [] tbl htbl startId endId rid).mp hl
          have hr0 : rid = 0 := by rw [hid]; exact hstart r hr hhead
          subst hr0
          refine ⟨?_, r, hr, hid.symm, hhead⟩
          rcases hpre with ⟨tail, htail⟩
          rw [← htail]
          rfl
  · intro g data fuel tokens rs h
    exact parseLRGo_accept g data fuel _ _ _ _ h

/-- **C10** (witness).  `parse_ll` on `nullableG` with input `d` returns
`[0, 1, 2, 4]`, starting with the augmentation rule 0; `parse_lr` on the
expression grammar with input `id + id * id` returns a sequence headed by
rule 0, accepted by an `Accept(0)` entry of the ACTION table. -/
theorem c10_witness :
    parse_ll nullableG 100 [6] = some (.ok [0, 1, 2, 4]) ∧
      ([0, 1, 2, 4] : List Nat).head? = some 0 ∧
      (∃ r ∈ nullableG.rules, r.id = 0 ∧ r.head = startId) ∧
      (∃ st tok r,
        assocGet exprData.action_table (st, tok) = some (.Accept r) ∧
          ([0, 1, 3, 6, 4, 6, 2, 4, 6] : List Nat).head? = some r) := by
  refine ⟨by decide, ?_, ?_, ?_⟩
  · exact (c10_theorem.1 nullableG 100 [6] [0, 1, 2, 4] (by decide)
      (by decide)).1
  · exact (c10_theorem.1 nullableG 100 [6] [0, 1, 2, 4] (by decide)
      (by decide)).2
  · exact c10_theorem.2 exprG exprData 200 exprInput
      [0, 1, 3, 6, 4, 6, 2, 4, 6] (by decide)

/-! Lemmas for the LEFT-table characterization (C7). -/

/-- `insSorted` permutes pushing the element. -/
theorem insSorted_perm (le : α → α → Bool) (a : α) :
    ∀ l : List α, List.Perm (insSorted le a l) (a :: l) := by
  intro l
  induction l with
  | nil => simp [insSorted]
  | cons b rest ih =>
    unfold insSorted
    split
    · exact List.Perm.refl _
    · exact (List.Perm.cons b ih).trans (List.Perm.swap a b rest)

/-- Insertion sort permutes its input. -/
theorem sortBy_perm (le : α → α → Bool) :
    ∀ l : List α, List.Perm (sortBy le l) l := by
  intro l
  induction l with
  | nil => simp [sortBy]
  | cons a rest ih =>
    exact (insSorted_perm le a (sortBy le rest)).trans (List.Perm.cons a ih)

/-- `sortNat` permutes its input. -/
theorem sortNat_perm (l : List Nat) : List.Perm (sortNat l) l :=
  sortBy_perm _ l

/-- `setInsert` preserves duplicate-freedom. -/
theorem setInsert_nodup (l : List Nat) (a : Nat) (h : l.Nodup) :
    (setInsert l a).Nodup := by
  unfold setInsert
  split
  · exact h
  · next hc =>
    simp only [List.nodup_append, List.nodup_cons]
    exact ⟨h, by simp, by simpa using hc⟩

/-- `setUnion` preserves duplicate-freedom of its left argument. -/
theorem setUnion_nodup (m : List Nat) :
    ∀ l : List Nat, l.Nodup → (setUnion l m).Nodup := by
  induction m with
  | nil => intro l h; simpa [setUnion] using h
  | cons a rest ih =>
    intro l h
    exact ih (setInsert l a) (setInsert_nodup l a h)

/-- The running set of `first_sequence` is duplicate-free. -/
theorem firstSequenceGo_nodup (g : Grammar) (fuel : Nat) :
    ∀ (symbols acc : List Nat) (c : FirstCache), acc.Nodup →
      (firstSequenceGo g fuel symbols acc c).1.Nodup := by
  intro symbols
  induction symbols with
  | nil => intro acc c h; simpa [firstSequenceGo] using h
  | cons s rest ih =>
    intro acc c h
    simp only [firstSequenceGo]
    split
    · exact ih _ _ (setUnion_nodup _ _ h)
    · exact List.Nodup.filter _ (setUnion_nodup _ _ h)

/-- `first_sequence` returns a duplicate-free list. -/
theorem first_sequence_nodup (g : Grammar) (symbols : List Nat) :
    (first_sequence g symbols).Nodup :=
  (sortNat_perm _).nodup_iff.mpr
    (firstSequenceGo_nodup g (firstFuel g) symbols [] [] (by simp))

/-- One `entryPush` appends the item to the cell's bucket, creating the
bucket when needed, and leaves other cells alone. -/
theorem entryPush_get (l : List ((Nat × Nat) × List Item)) (k0 : Nat × Nat)
    (it : Item) (k : Nat × Nat) :
    assocGet (entryPush l k0 it) k =
      if k = k0 then
        match assocGet l k0 with
        | some items => some (items ++ [it])
        | none => some [it]
      else assocGet l k := by
  unfold entryPush
  rcases hget : assocGet l k0 with _ | items
  · by_cases hk : k = k0
    · subst hk
      rw [if_pos rfl]
      induction l with
      | nil => simp [assocGet]
      | cons p rest ih =>
        obtain ⟨k', v'⟩ := p
        rw [assocGet_cons] at hget
        rw [List.cons_append, assocGet_cons]
        split at hget
        · cases hget
        · next hne =>
          rw [if_neg hne]
          exact ih hget
    · rw [if_neg hk]
      induction l with
      | nil =>
        rw [List.nil_append, assocGet_cons,
          if_neg (show ¬k0 = k from fun hh => hk hh.symm)]
      | cons p rest ih =>
        obtain ⟨k', v'⟩ := p
        rw [assocGet_cons] at hget
        rw [List.cons_append, assocGet_cons, assocGet_cons]
        split at hget
        · cases hget
        · split
          · rfl
          · exact ih hget
  · rw [assocGet_assocSet]

/-- Recording one item under a duplicate-free symbol list: the affected
cells are exactly `(state, s)` for `s` in the list. -/
theorem entryPushAll_get (stId : Nat) (it : Item) :
    ∀ (ss : List Nat) (acc : List ((Nat × Nat) × List Item))
      (k : Nat × Nat), ss.Nodup →
      assocGet (entryPushAll stId it ss acc) k =
        if k.1 = stId ∧ k.2 ∈ ss then
          match assocGet acc k with
          | some items => some (items ++ [it])
          | none => some [it]
        else assocGet acc k := by
  intro ss
  induction ss with
  | nil =>
    intro acc k _
    simp [entryPushAll]
  | cons s rest ih =>
    intro acc k hnd
    obtain ⟨hs, hndr⟩ := List.nodup_cons.mp hnd
    have hstep : entryPushAll stId it (s :: rest) acc =
        entryPushAll stId it rest (entryPush acc (stId, s) it) := rfl
    rw [hstep, ih _ k hndr]
    by_cases h1 : k.1 = stId
    · by_cases h2 : k.2 = s
      · have hk : k = (stId, s) := Prod.ext h1 h2
        have hmr : k.2 ∉ rest := h2 ▸ hs
        rw [if_neg (fun hc => hmr hc.2),
          if_pos ⟨h1, by rw [h2]; exact List.mem_cons_self s rest⟩,
          entryPush_get, if_pos hk, hk]
      · by_cases h3 : k.2 ∈ rest
        · rw [if_pos ⟨h1, h3⟩, if_pos ⟨h1, List.mem_cons_of_mem _ h3⟩,
            entryPush_get, if_neg (fun hc : k = (stId, s) => h2 (by rw [hc]))]
        · rw [if_neg (fun hc => h3 hc.2), entryPush_get,
            if_neg (fun hc : k = (stId, s) => h2 (by rw [hc])),
            if_neg (fun hc => (List.mem_cons.mp hc.2).elim h2 h3)]
    · rw [if_neg (fun hc => h1 hc.1), if_neg (fun hc => h1 hc.1),
        entryPush_get, if_neg (fun hc : k = (stId, s) => h1 (by rw [hc]))]

/-- An association lookup misses exactly outside the key list. -/
theorem assocGet_eq_none_iff [DecidableEq κ] (l : List (κ × α)) (k : κ) :
    assocGet l k = none ↔ k ∉ l.map Prod.fst := by
  induction l with
  | nil => simp [assocGet]
  | cons p rest ih =>
    obtain ⟨k', v'⟩ := p
    rw [assocGet_cons]
    by_cases h : k' = k
    · subst h
      simp
    · rw [if_neg h]
      simp only [List.map_cons, List.mem_cons]
      rw [ih]
      constructor
      · intro hn hc
        rcases hc with hc | hc
        · exact h hc.symm
        · exact hn hc
      · intro hn
        exact fun hc => hn (Or.inr hc)

/-- Lookup in the append of two association lists. -/
theorem assocGet_append [DecidableEq κ] (A B : List (κ × α)) (k : κ) :
    assocGet (A ++ B) k =
      match assocGet A k with
      | some v => some v
      | none => assocGet B k := by
  induction A with
  | nil => simp [assocGet]
  | cons p rest ih =>
    obtain ⟨k', v'⟩ := p
    rw [List.cons_append, assocGet_cons, assocGet_cons]
    by_cases h : k' = k
    · rw [if_pos h, if_pos h]
    · rw [if_neg h, if_neg h, ih]

/-- The fold of `leftCandidates` over a list of item IDs: the bucket of a
cell collects, in order, the items whose follow-sequence FIRST set
contains the cell's symbol; cells of other states are untouched. -/
theorem leftCandFold_get (g : Grammar) (auto : Automaton) (stId : Nat) :
    ∀ (ids : List Nat) (acc : List ((Nat × Nat) × List Item))
      (k : Nat × Nat),
      assocGet (ids.foldl (leftCandStep g auto stId) acc) k =
        (let f := if k.1 = stId then
            (ids.map (fun iid => auto.items.getD iid default)).filter
              (fun it =>
                (first_sequence g (it.follow (g.rule it.rule))).contains k.2)
          else []
         match assocGet acc k with
         | some l => some (l ++ f)
         | none => if f.isEmpty then none else some f) := by
  intro ids
  induction ids with
  | nil =>
    intro acc k
    simp only [List.foldl_nil, List.map_nil, List.filter_nil, ite_self]
    rcases h : assocGet acc k with _ | l <;> simp
  | cons iid rest ih =>
    intro acc k
    rw [List.foldl_cons, ih (leftCandStep g auto stId acc iid) k]
    have hstep : assocGet (leftCandStep g auto stId acc iid) k =
        if k.1 = stId ∧ k.2 ∈ first_sequence g
            ((auto.items.getD iid default).follow
              (g.rule (auto.items.getD iid default).rule)) then
          match assocGet acc k with
          | some items => some (items ++ [auto.items.getD iid default])
          | none => some [auto.items.getD iid default]
        else assocGet acc k :=
      entryPushAll_get stId (auto.items.getD iid default) _ acc k
        (first_sequence_nodup g _)
    dsimp only
    rw [hstep]
    by_cases h1 : k.1 = stId
    · by_cases h2 : k.2 ∈ first_sequence g
          ((auto.items.getD iid default).follow
            (g.rule (auto.items.getD iid default).rule))
      · rw [if_pos (And.intro h1 h2), if_pos h1, if_pos h1, List.map_cons,
          List.filter_cons_of_pos (by simpa using h2)]
        rcases ha : assocGet acc k with _ | l
        · simp
        · simp [List.append_assoc]
      · rw [if_neg (fun hc => h2 hc.2), if_pos h1, if_pos h1,
          List.map_cons, List.filter_cons_of_neg (by simpa using h2)]
    · rw [if_neg (fun hc => h1 hc.1), if_neg h1, if_neg h1]

/-- The candidate map of one state at one of its own cells. -/
theorem leftCandidates_get (g : Grammar) (auto : Automaton) (st : State)
    (s : Nat) :
    assocGet (leftCandidates g auto st) (st.id, s) =
      (let f := (st.items.map (fun iid => auto.items.getD iid default)).filter
          (fun it =>
            (first_sequence g (it.follow (g.rule it.rule))).contains s)
       if f.isEmpty then none else some f) := by
  unfold leftCandidates
  rw [leftCandFold_get g auto st.id st.items [] (st.id, s)]
  simp [assocGet]

/-- Every entry of the candidate map carries the state's own ID. -/
theorem leftCandidates_key1 (g : Grammar) (auto : Automaton) (st : State) :
    ∀ e ∈ leftCandidates g auto st, e.1.1 = st.id := by
  intro e he
  by_contra hne
  have hsome : assocGet (leftCandidates g auto st) e.1 ≠ none := by
    intro hnone
    rw [assocGet_eq_none_iff] at hnone
    exact hnone (List.mem_map_of_mem Prod.fst he)
  unfold leftCandidates at hsome
  rw [leftCandFold_get g auto st.id st.items [] e.1] at hsome
  simp only [if_neg hne, assocGet, List.find?_nil, Option.map_none'] at hsome
  exact hsome rfl

/-- The keys of the filtered, value-mapped rendering are among the
original keys: outside them the lookup misses. -/
theorem assocGet_filterMapVal_none (p : List Item → Bool)
    (f : List Item → Nat) (k : Nat × Nat) :
    ∀ l : List ((Nat × Nat) × List Item), k ∉ l.map Prod.fst →
      assocGet ((l.filter (fun e => p e.2)).map (fun e => (e.1, f e.2)))
        k = none := by
  intro l
  induction l with
  | nil => intro _; simp [assocGet]
  | cons e rest ih =>
    obtain ⟨k0, v0⟩ := e
    intro hk
    simp only [List.map_cons, List.mem_cons] at hk
    push_neg at hk
    by_cases hp : p v0
    · rw [List.filter_cons_of_pos (by simpa using hp), List.map_cons,
        assocGet_cons, if_neg (fun hh => hk.1 hh.symm)]
      exact ih hk.2
    · rw [List.filter_cons_of_neg (by simpa using hp)]
      exact ih hk.2

/-- Over duplicate-free keys, lookup in the filtered, value-mapped
rendering of a candidate map is driven by the candidate lookup: a kept
bucket maps through `f`, a dropped bucket disappears. -/
theorem assocGet_filterMapVal (p : List Item → Bool)
    (f : List Item → Nat) (k : Nat × Nat) :
    ∀ l : List ((Nat × Nat) × List Item), (l.map Prod.fst).Nodup →
      assocGet ((l.filter (fun e => p e.2)).map (fun e => (e.1, f e.2)))
          k =
        match assocGet l k with
        | some v => if p v then some (f v) else none
        | none => none := by
  intro l
  induction l with
  | nil => intro _; simp [assocGet]
  | cons e rest ih =>
    obtain ⟨k0, v0⟩ := e
    intro hnd
    simp only [List.map_cons, List.nodup_cons] at hnd
    by_cases hk : k0 = k
    · subst hk
      rw [assocGet_cons, if_pos rfl]
      by_cases hp : p v0
      · rw [List.filter_cons_of_pos (by simpa using hp), List.map_cons,
          assocGet_cons, if_pos rfl]
        simp [hp]
      · rw [List.filter_cons_of_neg (by simpa using hp),
          assocGet_filterMapVal_none p f k0 rest hnd.1]
        simp [hp]
    · rw [assocGet_cons, if_neg hk]
      by_cases hp : p v0
      · rw [List.filter_cons_of_pos (by simpa using hp), List.map_cons,
          assocGet_cons, if_neg hk]
        exact ih hnd.2
      · rw [List.filter_cons_of_neg (by simpa using hp)]
        exact ih hnd.2

/-- `assocSet` on a present key keeps the key list unchanged. -/
theorem assocSet_keys [DecidableEq κ] (l : List (κ × α)) (k : κ) (v : α)
    (h : (assocGet l k).isSome) :
    (assocSet l k v).map Prod.fst = l.map Prod.fst := by
  induction l with
  | nil => simp [assocGet] at h
  | cons p rest ih =>
    obtain ⟨k', v'⟩ := p
    by_cases hk : k' = k
    · subst hk
      simp [assocSet]
    · rw [assocGet_cons, if_neg hk] at h
      simp only [assocSet, if_neg hk, List.map_cons]
      rw [ih h]

/-- `entryPush` either keeps the key list (existing bucket) or appends
the fresh key. -/
theorem entryPush_keys (l : List ((Nat × Nat) × List Item)) (k0 : Nat × Nat)
    (it : Item) :
    (entryPush l k0 it).map Prod.fst = l.map Prod.fst ∨
      ((entryPush l k0 it).map Prod.fst = l.map Prod.fst ++ [k0] ∧
        assocGet l k0 = none) := by
  unfold entryPush
  rcases hget : assocGet l k0 with _ | items
  · right
    simp [hget]
  · left
    exact assocSet_keys l k0 _ (by rw [hget]; rfl)

/-- `entryPush` keeps the key list duplicate-free. -/
theorem entryPush_keysNodup (l : List ((Nat × Nat) × List Item))
    (k0 : Nat × Nat) (it : Item)
    (h : (l.map Prod.fst).Nodup) :
    ((entryPush l k0 it).map Prod.fst).Nodup := by
  rcases entryPush_keys l k0 it with hk | ⟨hk, hnone⟩
  · rw [hk]; exact h
  · rw [hk, List.nodup_append]
    refine ⟨h, by simp, ?_⟩
    intro x hx
    simp only [List.mem_singleton]
    intro hxk
    subst hxk
    exact (assocGet_eq_none_iff l x).mp hnone hx

/-- The key list of the candidate map is duplicate-free. -/
theorem leftCandidates_keysNodup (g : Grammar) (auto : Automaton)
    (st : State) :
    ((leftCandidates g auto st).map Prod.fst).Nodup := by
  unfold leftCandidates
  have inner : ∀ (ss : List Nat) (it : Item)
      (acc : List ((Nat × Nat) × List Item)),
      (acc.map Prod.fst).Nodup →
      ((entryPushAll st.id it ss acc).map Prod.fst).Nodup := by
    intro ss
    induction ss with
    | nil => intro it acc h; exact h
    | cons s rest ih =>
      intro it acc h
      exact ih it _ (entryPush_keysNodup acc (st.id, s) it h)
  have main : ∀ (ids : List Nat) (acc : List ((Nat × Nat) × List Item)),
      (acc.map Prod.fst).Nodup →
      ((ids.foldl (leftCandStep g auto st.id) acc).map Prod.fst).Nodup := by
    intro ids
    induction ids with
    | nil => intro acc h; exact h
    | cons iid rest ih =>
      intro acc h
      exact ih _ (inner _ _ acc h)
  exact main st.items [] (by simp)

/-- Lookup in one state's LEFT-table block, written through the
candidate map. -/
theorem leftBlock_get (g : Grammar) (auto : Automaton) (st : State)
    (k : Nat × Nat) :
    assocGet (leftBlock g auto st) k =
      match assocGet (leftCandidates g auto st) k with
      | some v => if v.length = 1 && (v.headD default).unique then
          some (v.headD default).id else none
      | none => none :=
  assocGet_filterMapVal
    (fun v => v.length = 1 && (v.headD default).unique)
    (fun v => (v.headD default).id) k (leftCandidates g auto st)
    (leftCandidates_keysNodup g auto st)

/-- A block of a state with a different ID never answers for this
state's cells. -/
theorem leftBlock_get_ne (g : Grammar) (auto : Automaton) (st' : State)
    (v s : Nat) (hne : st'.id ≠ v) :
    assocGet (leftBlock g auto st') (v, s) = none := by
  rw [assocGet_eq_none_iff]
  intro hmem
  rcases List.mem_map.mp hmem with ⟨e, he, hfst⟩
  unfold leftBlock at he
  rcases List.mem_map.mp he with ⟨p, hp, hep⟩
  have hkey := leftCandidates_key1 g auto st' p (List.mem_of_mem_filter hp)
  rw [← hep] at hfst
  simp only at hfst
  exact hne (by rw [← hkey, hfst])

/-- Cells of states absent from a list of blocks answer nothing. -/
theorem leftBlocks_none (g : Grammar) (auto : Automaton) (v s : Nat) :
    ∀ sts : List State, (∀ st' ∈ sts, st'.id ≠ v) →
      assocGet ((sts.map (leftBlock g auto)).flatten) (v, s) = none := by
  intro sts
  induction sts with
  | nil => intro _; simp [assocGet]
  | cons st0 rest ih =>
    intro h
    rw [List.map_cons, List.flatten_cons, assocGet_append,
      leftBlock_get_ne g auto st0 v s (h st0 (List.mem_cons_self _ _))]
    exact ih (fun st' hst' => h st' (List.mem_cons_of_mem _ hst'))

/-- Walking a list of blocks with duplicate-free state IDs reduces a
state's cell to the state's own block. -/
theorem leftBlocks_get (g : Grammar) (auto : Automaton) :
    ∀ sts : List State, (sts.map State.id).Nodup →
      ∀ st, st ∈ sts → ∀ s : Nat,
      assocGet ((sts.map (leftBlock g auto)).flatten) (st.id, s) =
        assocGet (leftBlock g auto st) (st.id, s) := by
  intro sts
  induction sts with
  | nil => intro _ st hst; cases hst
  | cons st0 rest ih =>
    intro hnd st hst s
    simp only [List.map_cons, List.nodup_cons] at hnd
    rcases List.mem_cons.mp hst with rfl | hst'
    · rw [List.map_cons, List.flatten_cons, assocGet_append]
      rcases hb : assocGet (leftBlock g auto st) (st.id, s) with _ | v
      · have hrest : ∀ st' ∈ rest, st'.id ≠ st.id := fun st' hst' hid =>
          hnd.1 (hid ▸ List.mem_map_of_mem State.id hst')
        exact leftBlocks_none g auto st.id s rest hrest
      · rfl
    · have hne : st0.id ≠ st.id := fun hh =>
        hnd.1 (hh ▸ List.mem_map_of_mem State.id hst')
      rw [List.map_cons, List.flatten_cons, assocGet_append,
        leftBlock_get_ne g auto st0 st.id s hne]
      exact ih hnd.2 st hst' s

/-- Lookup in the LEFT table of a state with duplicate-free state IDs
reduces to the state's own block. -/
theorem left_table_get (g : Grammar) (auto : Automaton)
    (hnd : (auto.states.map State.id).Nodup) (st : State)
    (hst : st ∈ auto.states) (s : Nat) :
    assocGet (left_table g auto) (st.id, s) =
      assocGet (leftBlock g auto st) (st.id, s) :=
  leftBlocks_get g auto auto.states hnd st hst s

/-- Characterization of one LEFT-table cell, with the candidate list
abstracted into a variable. -/
theorem leftBlock_char (g : Grammar) (auto : Automaton) (st : State)
    (s j : Nat) (cands : List Item)
    (hc : assocGet (leftCandidates g auto st) (st.id, s) =
      (if cands.isEmpty then none else some cands)) :
    assocGet (leftBlock g auto st) (st.id, s) = some j ↔
      ∃ item : Item, cands = [item] ∧ item.unique = true ∧ j = item.id := by
  rw [leftBlock_get g auto st (st.id, s), hc]
  rcases cands with _ | ⟨x, rest⟩
  · simp
  · rw [List.isEmpty_cons]
    rw [if_neg (by simp)]
    dsimp only
    rcases rest with _ | ⟨y, rest2⟩
    · simp only [List.length_cons, List.length_nil, List.headD_cons]
      by_cases hu : x.unique
      · rw [if_pos (by simp [hu])]
        constructor
        · intro h
          exact ⟨x, rfl, hu, (Option.some.inj h).symm⟩
        · rintro ⟨item, hitem, hui, hid⟩
          obtain ⟨rfl, -⟩ := List.cons.inj hitem
          rw [hid]
      · rw [if_neg (by simp [hu])]
        constructor
        · intro h; cases h
        · rintro ⟨item, hitem, hui, hid⟩
          obtain ⟨rfl, -⟩ := List.cons.inj hitem
          exact absurd hui hu
    · simp only [List.length_cons]
      rw [if_neg (by simp)]
      constructor
      · intro h; cases h
      · rintro ⟨item, hitem, -, -⟩
        obtain ⟨-, habs⟩ := List.cons.inj hitem
        cases habs

/-- **C7**. In the LEFT table built by `autoData`, the cell for a state
and a terminal is populated with an item ID exactly when filtering the
state's items by whether the terminal lies in the FIRST sequence of the
item's remainder-plus-follow leaves exactly one item and that item is
unique; the stored value is that item's ID. -/
theorem c7_theorem (g : Grammar) (auto : Automaton)
    (hnd : (auto.states.map State.id).Nodup) (st : State)
    (hst : st ∈ auto.states) (s iid : Nat) :
    assocGet (left_table g auto) (st.id, s) = some iid ↔
      ∃ item : Item,
        (st.items.map (fun i => auto.items.getD i default)).filter
            (fun it =>
              (first_sequence g (it.follow (g.rule it.rule))).contains s) =
          [item] ∧
        item.unique = true ∧ iid = item.id := by
  rw [left_table_get g auto hnd st hst s]
  exact leftBlock_char g auto st s iid
    ((st.items.map (fun i => auto.items.getD i default)).filter
      (fun it =>
        (first_sequence g (it.follow (g.rule it.rule))).contains s))
    (leftCandidates_get g auto st s)

/-- Witness for C7: on the expression-grammar automaton the hypotheses
hold, and the LEFT-table characterization applies at state 0 with the
End terminal. -/
theorem c7_witness :
    (exprAuto.states.map State.id).Nodup ∧
    exprAuto.states.headD ⟨0, []⟩ ∈ exprAuto.states ∧
    (assocGet (left_table exprG exprAuto)
        ((exprAuto.states.headD ⟨0, []⟩).id, 1) = some 0 ↔
      ∃ item : Item,
        ((exprAuto.states.headD ⟨0, []⟩).items.map
            (fun i => exprAuto.items.getD i default)).filter
            (fun it =>
              (first_sequence exprG
                (it.follow (exprG.rule it.rule))).contains 1) =
          [item] ∧
        item.unique = true ∧ 0 = item.id) :=
  ⟨by decide, by decide,
    c7_theorem exprG exprAuto (by decide) _ (by decide) 1 0⟩

/-! Lemmas for the uniqueness-monotonicity invariant (C8). -/

/-- Rewriting `unique` to its own value is the identity. -/
theorem withUnique_eta (x : Item) : { x with unique := x.unique } = x := by
  cases x
  rfl

/-- `uniqueMono` is reflexive. -/
theorem uniqueMono_refl (l : List Item) : uniqueMono l l :=
  ⟨le_refl _, fun _ _ => ⟨(withUnique_eta _).symm, fun h => h⟩⟩

/-- Composing two field-preserving unique-updates. -/
theorem withUnique_trans (x y z : Item)
    (hy : y = { x with unique := y.unique })
    (hz : z = { y with unique := z.unique }) :
    z = { x with unique := z.unique } := by
  cases x
  cases y
  cases z
  simp_all

/-- `uniqueMono` is transitive. -/
theorem uniqueMono_trans {a b c : List Item} (h1 : uniqueMono a b)
    (h2 : uniqueMono b c) : uniqueMono a c := by
  refine ⟨le_trans h1.1 h2.1, fun i hi => ?_⟩
  have hib : i < b.length := lt_of_lt_of_le hi h1.1
  obtain ⟨e1, u1⟩ := h1.2 i hi
  obtain ⟨e2, u2⟩ := h2.2 i hib
  exact ⟨withUnique_trans _ _ _ e1 e2, fun h => u1 (u2 h)⟩

/-- `set` then `getD` at the set position. -/
theorem set_getD_eq (l : List Item) (i : Nat) (v : Item)
    (hi : i < l.length) : (l.set i v).getD i default = v := by
  rw [List.getD_eq_getElem?_getD, List.getElem?_set_eq_of_lt v hi]
  rfl

/-- `set` then `getD` at another position. -/
theorem set_getD_ne (l : List Item) (i j : Nat) (v : Item)
    (hne : i ≠ j) : (l.set i v).getD j default = l.getD j default := by
  rw [List.getD_eq_getElem?_getD, List.getD_eq_getElem?_getD,
    List.getElem?_set_ne hne]

/-- `setUnique` is monotone whenever the written flag, if raised, was
already raised. -/
theorem uniqueMono_setUnique (items : List Item) (id : Nat) (u : Bool)
    (h : u = true → (items.getD id default).unique = true) :
    uniqueMono items (setUnique items id u) := by
  refine ⟨le_of_eq (List.length_set items id _).symm, fun i hi => ?_⟩
  by_cases hii : id = i
  · subst hii
    rw [setUnique, set_getD_eq _ _ _ hi]
    exact ⟨rfl, fun hh => h hh⟩
  · rw [setUnique, set_getD_ne _ _ _ _ hii]
    exact ⟨(withUnique_eta _).symm, fun hh => hh⟩

/-- Clearing a batch of flags is monotone. -/
theorem uniqueMono_clearAll (ids : List Nat) :
    ∀ items : List Item,
      uniqueMono items
        (ids.foldl (fun acc id => setUnique acc id false) items) := by
  induction ids with
  | nil => intro items; exact uniqueMono_refl items
  | cons id rest ih =>
    intro items
    exact uniqueMono_trans
      (uniqueMono_setUnique items id false (fun hh => nomatch hh))
      (ih (setUnique items id false))

/-- The forward propagation of non-uniqueness is monotone. -/
theorem uniqueMono_propagate (frm : Nat × Nat)
    (trs : List ItemTransition) :
    ∀ (fuel : Nat) (nonUnique : List Nat) (items : List Item),
      uniqueMono items (propagateNonUnique frm trs fuel nonUnique items) := by
  intro fuel
  induction fuel with
  | zero => intro nu items; exact uniqueMono_refl items
  | succ n ih =>
    intro nu items
    rw [propagateNonUnique]
    split
    · exact uniqueMono_refl items
    · exact uniqueMono_trans (uniqueMono_clearAll _ items) (ih _ _)

/-- The second phase of `update_uniqueness` is monotone relative to its
first phase. -/
theorem uniqueMono_update_step (items items1 : List Item)
    (h1 : uniqueMono items items1) (frm : Nat × Nat)
    (trs : List ItemTransition) (id : Nat) :
    uniqueMono items
      (if (items1.getD id default).unique then items1
        else propagateNonUnique frm trs (items1.length + 1) [id] items1) := by
  split
  · exact h1
  · exact uniqueMono_trans h1 (uniqueMono_propagate frm trs _ _ _)

/-- `update_uniqueness` is monotone. -/
theorem uniqueMono_update (id : Nat) (frm : Nat × Nat)
    (items : List Item) (trs : List ItemTransition) :
    uniqueMono items (update_uniqueness id frm items trs) := by
  by_cases hu : (items.getD id default).unique
  · rw [update_uniqueness,
      if_neg (by simp only [hu, Bool.not_true]; exact fun hh => nomatch hh)]
    dsimp only
    apply uniqueMono_update_step
    split
    · exact uniqueMono_setUnique items id false (fun hh => nomatch hh)
    · exact uniqueMono_setUnique items id _ (fun _ => hu)
  · have hf : (items.getD id default).unique = false := by simpa using hu
    rw [update_uniqueness, if_pos (by simp only [hf]; rfl)]
    exact uniqueMono_refl items

/-- Appending items is monotone. -/
theorem uniqueMono_append (l l2 : List Item) : uniqueMono l (l ++ l2) := by
  refine ⟨by simp, fun i hi => ?_⟩
  have hget : (l ++ l2).getD i default = l.getD i default := by
    rw [List.getD_eq_getElem?_getD, List.getD_eq_getElem?_getD,
      List.getElem?_append_left hi]
  rw [hget]
  exact ⟨(withUnique_eta _).symm, fun hh => hh⟩

/-- The per-lookahead closure loop is monotone on the item list. -/
theorem uniqueMono_closureLas (g : Grammar) (stateId parentId : Nat)
    (pu : Bool) (rule : Rule) :
    ∀ (las : List Nat) (ds : DeriveSt),
      uniqueMono ds.nextItems
        (closureLas g stateId parentId pu rule las ds).nextItems := by
  intro las
  induction las with
  | nil => intro ds; exact uniqueMono_refl _
  | cons la rest ih =>
    intro ds
    rw [closureLas]
    dsimp only
    split
    · refine uniqueMono_trans ?_ (ih _)
      exact uniqueMono_update _ _ _ _
    · refine uniqueMono_trans ?_ (ih _)
      exact uniqueMono_append ds.nextItems _

/-- The per-rule closure loop is monotone on the item list. -/
theorem uniqueMono_closureRules (g : Grammar) (stateId parentId : Nat)
    (pu : Bool) (las : List Nat) :
    ∀ (rules : List Rule) (ds : DeriveSt),
      uniqueMono ds.nextItems
        (closureRules g stateId parentId pu las rules ds).nextItems := by
  intro rules
  induction rules with
  | nil => intro ds; exact uniqueMono_refl _
  | cons r rest ih =>
    intro ds
    rw [closureRules]
    exact uniqueMono_trans (uniqueMono_closureLas g stateId parentId pu r las ds) (ih _)

/-- The closure work queue is monotone on the item list. -/
theorem uniqueMono_closureLoop (g : Grammar) (stateId : Nat) :
    ∀ (fuel : Nat) (ds ds' : DeriveSt),
      closureLoop g stateId fuel ds = some ds' →
      uniqueMono ds.nextItems ds'.nextItems := by
  intro fuel
  induction fuel with
  | zero => intro ds ds' h; simp [closureLoop] at h
  | succ n ih =>
    intro ds ds' h
    rw [closureLoop] at h
    rcases hq : ds.queue with _ | ⟨qid, qrest⟩
    · simp only [hq] at h
      cases Option.some.inj h
      exact uniqueMono_refl _
    · simp only [hq] at h
      rcases hh : (ds.nextItems[qid]?.getD default).head with _ | head
      · simp only [List.getD_eq_getElem?_getD, hh] at h
        simp at h
      · rcases hr : assocGet g.symbol_rules head with _ | rids
        · simp only [List.getD_eq_getElem?_getD, hh, hr] at h
          simp at h
        · simp only [List.getD_eq_getElem?_getD, hh, hr] at h
          exact uniqueMono_trans
            (uniqueMono_closureRules g stateId _ _ _ _ { ds with queue := qrest })
            (ih _ _ h)

/-- **C8**. Uniqueness is monotone during `State::derive`: the forward
propagation of non-uniqueness, every invocation of `update_uniqueness`,
and the whole closure loop only grow the item list, preserve every field
but `unique` of the existing items, and never turn a cleared `unique`
flag back on. -/
theorem c8_theorem :
    (∀ (frm : Nat × Nat) (trs : List ItemTransition) (fuel : Nat)
        (nonUnique : List Nat) (items : List Item),
      uniqueMono items (propagateNonUnique frm trs fuel nonUnique items)) ∧
    (∀ (id : Nat) (frm : Nat × Nat) (items : List Item)
        (trs : List ItemTransition),
      uniqueMono items (update_uniqueness id frm items trs)) ∧
    (∀ (g : Grammar) (stateId fuel : Nat) (ds ds' : DeriveSt),
      closureLoop g stateId fuel ds = some ds' →
      uniqueMono ds.nextItems ds'.nextItems) :=
  ⟨fun frm trs fuel nu items => uniqueMono_propagate frm trs fuel nu items,
   fun id frm items trs => uniqueMono_update id frm items trs,
   fun g stateId fuel ds ds' h => uniqueMono_closureLoop g stateId fuel ds ds' h⟩

/-- Witness for C8: the closure loop run on the expression grammar's
seeded derivation state succeeds and the invariant holds for it. -/
theorem c8_witness :
    closureLoop exprG 0 200 c8ds = some c8ds' ∧
    uniqueMono c8ds.nextItems c8ds'.nextItems :=
  ⟨rfl, c8_theorem.2.2 exprG 0 200 c8ds c8ds' rfl⟩

end Syn
